import Mathlib

/-!
Shallow embedding of the core of `fractal-image-comp-rs` (crate
`fractal-images`), and proofs settling the frozen claims about its
specification.

Conventions of the embedding:
* Rust `u32` values are `ℕ`; where wrap-around or wire bounds matter the
  relevant bound (`< 2^32`, …) appears as an explicit hypothesis.
* Rust `i16` is `ℤ` with the bound `-2^15 ≤ b < 2^15` where it matters.
* `f64` appears in two roles.  On the wire (persistence) only the 64-bit
  pattern matters, so a serialized `f64` is a `ℕ` below `2^64`.  In the
  mapping solver and the image views the arithmetic that the claims touch
  is exact in `f64` (integer sums of pixel values and divisions that are
  exact at the inputs the proofs evaluate), so those computations are
  modelled over `ℚ`; comments at each definition record the argument.
* Fallible Rust functions return `Except`; a reachable `unwrap`/`assert`
  failure is modelled by an explicit result constructor.
-/

/-- Decidable equality for `Except`, so that concrete runs of the
fallible operations can be checked by `decide`. -/
instance {ε α : Type} [DecidableEq ε] [DecidableEq α] :
    DecidableEq (Except ε α) := fun a b =>
  match a, b with
  | .ok x, .ok y =>
      if h : x = y then .isTrue (by rw [h]) else .isFalse (by simp [h])
  | .error x, .error y =>
      if h : x = y then .isTrue (by rw [h]) else .isFalse (by simp [h])
  | .ok _, .error _ => .isFalse (by simp)
  | .error _, .ok _ => .isFalse (by simp)

namespace Fractal

/-- `Size` from `image.rs`: a pair (width, height) of `u32`. -/
structure Size where
  width : ℕ
  height : ℕ
deriving DecidableEq, Repr

/-- `Size::squared` from `image.rs`. -/
def Size.squared (n : ℕ) : Size := ⟨n, n⟩

/-- `Size::area` from `image.rs` (`width * height`). -/
def Size.area (s : Size) : ℕ := s.width * s.height

/-- `Size::is_squared` from `image.rs`. -/
def Size.is_squared (s : Size) : Bool := s.width = s.height

/-- `Size::transpose` from `image.rs`. -/
def Size.transpose (s : Size) : Size := ⟨s.height, s.width⟩

/-- `impl Div<u32> for Size` from `image.rs`.  Faithful to the source,
which computes **both** components from `self.width`:
`Size { width: self.width / rhs, height: self.width / rhs }`. -/
def Size.div (s : Size) (rhs : ℕ) : Size := ⟨s.width / rhs, s.width / rhs⟩

/-- `impl Mul<u32> for Size` from `image.rs`.  As in the source, both
components are computed from `self.width`. -/
def Size.mul (s : Size) (rhs : ℕ) : Size := ⟨s.width * rhs, s.width * rhs⟩

/-- `Coords` from `image.rs`. -/
structure Coords where
  x : ℕ
  y : ℕ
deriving DecidableEq, Repr

/-- `model::Block` from `model/block.rs`. -/
structure Block where
  block_size : ℕ
  origin : Coords
deriving DecidableEq, Repr

/-- `Rotation` from `model/rotation.rs`. -/
inductive Rotation where
  | by0
  | by90
  | by180
  | by270
deriving DecidableEq, Repr

/-- `impl From<Rotation> for u8` from `model/rotation.rs`. -/
def Rotation.toU8 : Rotation → ℕ
  | .by0 => 0
  | .by90 => 1
  | .by180 => 2
  | .by270 => 3

/-- `impl TryFrom<u8> for Rotation` from `model/rotation.rs`:
bytes 0..=3 decode, anything else is `RotationInvalidError`. -/
def Rotation.try_from (value : ℕ) : Except ℕ Rotation :=
  match value with
  | 0 => .ok .by0
  | 1 => .ok .by90
  | 2 => .ok .by180
  | 3 => .ok .by270
  | code => .error code

/-- `model::Transformation` from `model/transformation.rs`, parametrised
by the type standing in for the `f64` saturation field (the bit pattern
`ℕ` on the persistence side, the exact value `ℚ` on the solver side). -/
structure Transformation (α : Type) where
  range : Block
  domain : Block
  rotation : Rotation
  brightness : ℤ
  saturation : α
deriving DecidableEq, Repr

/-- `model::Compressed` from `model/compressed.rs`. -/
structure Compressed (α : Type) where
  size : Size
  transformations : List (Transformation α)
deriving DecidableEq, Repr

/-- An image in the sense of the `Image` trait of `image.rs`: a size and
a pixel function.  Pixels are `u8`; the bound `≤ 255` is carried as the
predicate `Img.Wf` where a proof needs it. -/
structure Img where
  size : Size
  pixel : ℕ → ℕ → ℕ

/-- The `u8` range invariant of the `Pixel` type. -/
def Img.Wf (img : Img) : Prop := ∀ x y, img.pixel x y ≤ 255

/-- `Downscaled2x2::get_size` from `image/downscale.rs`:
`self.image.get_size() / 2` through the width-only `Div` above. -/
def downscaledSize (img : Img) : Size := img.size.div 2

/-! ### Byte-level readers and writers (`byteorder`, little-endian)

A wire byte stream is a `List ℕ` of byte values.  Writers emit the
little-endian bytes of a value; readers are the `byteorder` reads used by
`persistence/binary_v1.rs`, returning `none` on end of input. -/

/-- Little-endian bytes of a `u32` (`write_u32::<LittleEndian>`). -/
def writeU32 (n : ℕ) : List ℕ :=
  [n % 256, n / 256 % 256, n / 65536 % 256, n / 16777216 % 256]

/-- Little-endian bytes of a `u64` bit pattern (`write_f64` writes the
IEEE-754 bit pattern of the saturation; only the 64 bits travel). -/
def writeU64 (n : ℕ) : List ℕ :=
  [n % 256, n / 256 % 256, n / 65536 % 256, n / 16777216 % 256,
   n / 4294967296 % 256, n / 1099511627776 % 256,
   n / 281474976710656 % 256, n / 72057594037927936 % 256]

/-- Little-endian two's-complement bytes of an `i16`
(`write_i16::<LittleEndian>`). -/
def writeI16 (b : ℤ) : List ℕ :=
  [(b % 65536).toNat % 256, (b % 65536).toNat / 256]

/-- `read_u8`. -/
def readU8 : List ℕ → Option (ℕ × List ℕ)
  | b0 :: rest => some (b0, rest)
  | [] => none

/-- `read_u32::<LittleEndian>`; `none` models the `UnexpectedEof` error of
`read_exact` (fewer than 4 bytes remain). -/
def readU32 : List ℕ → Option (ℕ × List ℕ)
  | b0 :: b1 :: b2 :: b3 :: rest =>
      some (b0 + 256 * b1 + 65536 * b2 + 16777216 * b3, rest)
  | _ => none

/-- `read_f64::<LittleEndian>` at the bit-pattern level. -/
def readU64 : List ℕ → Option (ℕ × List ℕ)
  | b0 :: b1 :: b2 :: b3 :: b4 :: b5 :: b6 :: b7 :: rest =>
      some (b0 + 256 * b1 + 65536 * b2 + 16777216 * b3 +
            4294967296 * b4 + 1099511627776 * b5 +
            281474976710656 * b6 + 72057594037927936 * b7, rest)
  | _ => none

/-- `read_i16::<LittleEndian>` (two's complement decode). -/
def readI16 : List ℕ → Option (ℤ × List ℕ)
  | b0 :: b1 :: rest =>
      let u := b0 + 256 * b1
      some (if u < 32768 then (u : ℤ) else (u : ℤ) - 65536, rest)
  | _ => none

/-! ### `persistence/binary_v1.rs` -/

namespace binary_v1

/-- `SerializationError` from `binary_v1.rs`.  The `IO` variant is omitted:
`serialize` writes into a `Vec<u8>`, whose `Write` impl never fails, so the
only reachable error is `InvalidBlockSize`. -/
inductive SerializationError where
  | invalidBlockSize (range_size domain_size : ℕ)
deriving DecidableEq, Repr

/-- `DeserializationError` from `binary_v1.rs`: an underlying reader
error, or a rotation byte outside `0..=3`. -/
inductive DeserializationError where
  | ioError
  | invalidRotation (code : ℕ)
deriving DecidableEq, Repr

/-- Result of `deserialize`.  The constructor `aborted` models a panic:
the source calls `.unwrap()` on the two header reads, which aborts the
process instead of returning an error when the stream is too short. -/
inductive DRes (α : Type) where
  | aborted
  | err (e : DeserializationError)
  | ok (v : α)
deriving DecidableEq, Repr

/-- `EntryChild` from `binary_v1.rs`.  `rotation` is the raw wire byte;
`saturation` is the 64-bit pattern of the `f64`. -/
structure EntryChild where
  rb_origin : Coords
  db_origin : Coords
  rotation : ℕ
  brightness : ℤ
  saturation : ℕ
deriving DecidableEq, Repr

/-- `EntryChild::serialize`. -/
def EntryChild.serialize (c : EntryChild) : List ℕ :=
  writeU32 c.rb_origin.x ++ writeU32 c.rb_origin.y ++
  writeU32 c.db_origin.x ++ writeU32 c.db_origin.y ++
  [c.rotation] ++ writeI16 c.brightness ++ writeU64 c.saturation

/-- The `EntryChild` built from a transformation inside
`generate_entries` (field-by-field projection). -/
def toChild (t : Transformation ℕ) : EntryChild :=
  ⟨t.range.origin, t.domain.origin, t.rotation.toU8, t.brightness, t.saturation⟩

/-- The `FxHashMap<u32, Entry>` of `generate_entries`, as an association
list.  `entry(k).or_insert(..)` followed by `push` appends the child to
the group of key `k`, creating the group if absent.  The hash map's
iteration order is unspecified in the source; the model fixes it to
first-insertion order, which is one admissible order (the round-trip
claim compares multisets, which every order yields equally). -/
def insertEntry : List (ℕ × List EntryChild) → ℕ → EntryChild →
    List (ℕ × List EntryChild)
  | [], k, c => [(k, [c])]
  | (k', cs) :: rest, k, c =>
      if k' = k then (k', cs ++ [c]) :: rest
      else (k', cs) :: insertEntry rest k c

/-- `generate_entries` from `binary_v1.rs`: walk the transformations,
failing with `InvalidBlockSize` on the first one whose domain block is
not twice its range block, otherwise grouping the projected entries by
range block size.  The accumulator argument makes the Rust `for` loop a
structural recursion. -/
def generate_entries : List (Transformation ℕ) → List (ℕ × List EntryChild) →
    Except SerializationError (List (ℕ × List EntryChild))
  | [], m => .ok m
  | t :: ts, m =>
      if t.domain.block_size = 2 * t.range.block_size then
        generate_entries ts (insertEntry m t.range.block_size (toChild t))
      else
        .error (.invalidBlockSize t.range.block_size t.domain.block_size)

/-- The group section of the stream: for each `(rb_size, entry)` pair, the
key, the entry count (`Entry::serialize`), then the children. -/
def serializeGroups (m : List (ℕ × List EntryChild)) : List ℕ :=
  m.flatMap fun g =>
    writeU32 g.1 ++ writeU32 g.2.length ++ g.2.flatMap EntryChild.serialize

/-- `serialize` from `binary_v1.rs`: width, height, then the groups. -/
def serialize (c : Compressed ℕ) : Except SerializationError (List ℕ) :=
  match generate_entries c.transformations [] with
  | .error e => .error e
  | .ok m =>
      .ok (writeU32 c.size.width ++ writeU32 c.size.height ++ serializeGroups m)

/-- `EntryChild::deserialize`: four `u32`s, the rotation byte, the
brightness `i16`, the saturation `f64` bits.  `none` is an IO error. -/
def readChild (bytes : List ℕ) : Option (EntryChild × List ℕ) := do
  let (rx, b) ← readU32 bytes
  let (ry, b) ← readU32 b
  let (dx, b) ← readU32 b
  let (dy, b) ← readU32 b
  let (rot, b) ← readU8 b
  let (br, b) ← readI16 b
  let (sat, b) ← readU64 b
  some (⟨⟨rx, ry⟩, ⟨dx, dy⟩, rot, br, sat⟩, b)

/-- The child-reading loop of `Entry::deserialize` (`entries_count`
children). -/
def readChildren : ℕ → List ℕ → Option (List EntryChild × List ℕ)
  | 0, bytes => some ([], bytes)
  | n + 1, bytes => do
      let (c, b) ← readChild bytes
      let (cs, b') ← readChildren n b
      some (c :: cs, b')

/-- Reconstruction of one transformation inside the deserialize loop:
the domain block size is rebuilt as `2 * range_size`; an invalid rotation
byte is `InvalidRotation`. -/
def fromChild (range_size : ℕ) (c : EntryChild) :
    Except DeserializationError (Transformation ℕ) :=
  match Rotation.try_from c.rotation with
  | .error code => .error (.invalidRotation code)
  | .ok rot =>
      .ok ⟨⟨range_size, c.rb_origin⟩, ⟨2 * range_size, c.db_origin⟩,
           rot, c.brightness, c.saturation⟩

/-- The `for rb_child in rb_entry.entries` push loop of `deserialize`. -/
def childrenToTrans (range_size : ℕ) :
    List EntryChild → Except DeserializationError (List (Transformation ℕ))
  | [] => .ok []
  | c :: cs =>
      match fromChild range_size c with
      | .error e => .error e
      | .ok t =>
          match childrenToTrans range_size cs with
          | .error e => .error e
          | .ok ts => .ok (t :: ts)

/-- `readU32` consumes exactly four bytes (for termination of the group
loop). -/
theorem readU32_length {bytes rest : List ℕ} {n : ℕ}
    (h : readU32 bytes = some (n, rest)) : rest.length + 4 = bytes.length := by
  match bytes with
  | b0 :: b1 :: b2 :: b3 :: r => simp [readU32] at h; simp [h.2]
  | [] => simp [readU32] at h
  | [b0] => simp [readU32] at h
  | [b0, b1] => simp [readU32] at h
  | [b0, b1, b2] => simp [readU32] at h

/-- `readU64` consumes bytes (weak form). -/
theorem readU64_length {bytes rest : List ℕ} {n : ℕ}
    (h : readU64 bytes = some (n, rest)) : rest.length ≤ bytes.length := by
  match bytes with
  | b0 :: b1 :: b2 :: b3 :: b4 :: b5 :: b6 :: b7 :: r =>
      simp only [readU64, Option.some.injEq, Prod.mk.injEq] at h
      obtain ⟨-, rfl⟩ := h
      simp only [List.length_cons]
      omega
  | [] => simp [readU64] at h
  | [b0] => simp [readU64] at h
  | [b0, b1] => simp [readU64] at h
  | [b0, b1, b2] => simp [readU64] at h
  | [b0, b1, b2, b3] => simp [readU64] at h
  | [b0, b1, b2, b3, b4] => simp [readU64] at h
  | [b0, b1, b2, b3, b4, b5] => simp [readU64] at h
  | [b0, b1, b2, b3, b4, b5, b6] => simp [readU64] at h

/-- `readI16` consumes bytes (weak form). -/
theorem readI16_length {bytes rest : List ℕ} {b : ℤ}
    (h : readI16 bytes = some (b, rest)) : rest.length ≤ bytes.length := by
  match bytes with
  | b0 :: b1 :: r =>
      simp only [readI16, Option.some.injEq, Prod.mk.injEq] at h
      obtain ⟨-, rfl⟩ := h
      simp only [List.length_cons]
      omega
  | [] => simp [readI16] at h
  | [b0] => simp [readI16] at h

/-- `readU8` consumes bytes (weak form). -/
theorem readU8_length {bytes rest : List ℕ} {n : ℕ}
    (h : readU8 bytes = some (n, rest)) : rest.length ≤ bytes.length := by
  match bytes with
  | b0 :: r =>
      simp only [readU8, Option.some.injEq, Prod.mk.injEq] at h
      obtain ⟨-, rfl⟩ := h
      simp only [List.length_cons]
      omega
  | [] => simp [readU8] at h

/-- `readChild` never grows the stream. -/
theorem readChild_length {bytes rest : List ℕ} {c : EntryChild}
    (h : readChild bytes = some (c, rest)) : rest.length ≤ bytes.length := by
  simp only [readChild, Option.bind_eq_bind, Option.bind_eq_some] at h
  obtain ⟨⟨rx, b1⟩, h1, ⟨ry, b2⟩, h2, ⟨dx, b3⟩, h3, ⟨dy, b4⟩, h4,
    ⟨rot, b5⟩, h5, ⟨br, b6⟩, h6, ⟨sat, b7⟩, h7, heq⟩ := h
  simp only [Option.some.injEq, Prod.mk.injEq] at heq
  obtain ⟨-, rfl⟩ := heq
  dsimp only at h1 h2 h3 h4 h5 h6 h7
  have l1 := readU32_length h1
  have l2 := readU32_length h2
  have l3 := readU32_length h3
  have l4 := readU32_length h4
  have l5 := readU8_length h5
  have l6 := readI16_length h6
  have l7 := readU64_length h7
  omega

/-- `readChildren` never grows the stream. -/
theorem readChildren_length {n : ℕ} {bytes rest : List ℕ} {cs : List EntryChild}
    (h : readChildren n bytes = some (cs, rest)) : rest.length ≤ bytes.length := by
  induction n generalizing bytes cs with
  | zero => simp [readChildren] at h; simp [h.2]
  | succ n ih =>
      simp only [readChildren, Option.bind_eq_bind, Option.bind_eq_some] at h
      obtain ⟨⟨c, b⟩, hc, ⟨cs', b'⟩, hcs, heq⟩ := h
      simp only [Option.some.injEq, Prod.mk.injEq] at heq
      obtain ⟨-, rfl⟩ := heq
      exact le_trans (ih hcs) (readChild_length hc)

/-- The `while let Ok(range_size) = reader.read_u32()` loop of
`deserialize`: a clean end of input (fewer than 4 bytes remain) ends the
loop with success; a failed read *inside* a group is an IO error; a bad
rotation byte is `InvalidRotation`. -/
def deserializeLoop (bytes : List ℕ) :
    Except DeserializationError (List (Transformation ℕ)) :=
  match h1 : readU32 bytes with
  | none => .ok []
  | some (range_size, r1) =>
    match h2 : readU32 r1 with
    | none => .error .ioError
    | some (cnt, r2) =>
      match h3 : readChildren cnt r2 with
      | none => .error .ioError
      | some (children, r3) =>
        match childrenToTrans range_size children with
        | .error e => .error e
        | .ok ts =>
          match deserializeLoop r3 with
          | .error e => .error e
          | .ok rest => .ok (ts ++ rest)
termination_by bytes.length
decreasing_by
  have l1 := readU32_length h1
  have l2 := readU32_length h2
  have l3 := readChildren_length h3
  omega

/-- `deserialize` from `binary_v1.rs`.  The two header reads use
`.unwrap()` in the source: end of input there aborts the process
(`DRes.aborted`) instead of surfacing an IO error. -/
def deserialize (bytes : List ℕ) : DRes (Compressed ℕ) :=
  match readU32 bytes with
  | none => .aborted
  | some (width, r1) =>
    match readU32 r1 with
    | none => .aborted
    | some (height, r2) =>
      match deserializeLoop r2 with
      | .error e => .err e
      | .ok ts => .ok ⟨⟨width, height⟩, ts⟩

/-- Total decode of a rotation byte known to be in `0..=3` (the value
`Rotation::try_from` returns on those bytes). -/
def rotDecode : ℕ → Rotation
  | 0 => .by0
  | 1 => .by90
  | 2 => .by180
  | _ => .by270

/-- The transformation `deserialize` rebuilds from a group key and a
child (domain block size `2 * range_size`, domain origin from the wire). -/
def reconChild (k : ℕ) (c : EntryChild) : Transformation ℕ :=
  ⟨⟨k, c.rb_origin⟩, ⟨2 * k, c.db_origin⟩, rotDecode c.rotation,
   c.brightness, c.saturation⟩

/-- All transformations encoded by a group map, in group order. -/
def flatTransM (m : List (ℕ × List EntryChild)) : List (Transformation ℕ) :=
  m.flatMap fun g => g.2.map (reconChild g.1)

/-- Total number of children across all groups. -/
def sumLens (m : List (ℕ × List EntryChild)) : ℕ :=
  (m.map fun g => g.2.length).sum

/-- Wire bounds of one `EntryChild` (`u32` origins, rotation byte from a
`Rotation`, `i16` brightness, 64-bit saturation pattern). -/
def ChildWf (c : EntryChild) : Prop :=
  c.rb_origin.x < 2 ^ 32 ∧ c.rb_origin.y < 2 ^ 32 ∧
  c.db_origin.x < 2 ^ 32 ∧ c.db_origin.y < 2 ^ 32 ∧
  c.rotation < 4 ∧
  -(2 ^ 15) ≤ c.brightness ∧ c.brightness < 2 ^ 15 ∧ c.saturation < 2 ^ 64

/-- Wire bounds of a whole group map. -/
def MWf (m : List (ℕ × List EntryChild)) : Prop :=
  ∀ g ∈ m, g.1 < 2 ^ 32 ∧ g.2.length < 2 ^ 32 ∧ ∀ c ∈ g.2, ChildWf c

/-- Wire bounds a `Transformation` must satisfy to be representable by
the Rust field types (`u32` origins and range size, `i16` brightness,
64-bit saturation pattern). -/
def TransWf (t : Transformation ℕ) : Prop :=
  t.range.block_size < 2 ^ 32 ∧
  t.range.origin.x < 2 ^ 32 ∧ t.range.origin.y < 2 ^ 32 ∧
  t.domain.origin.x < 2 ^ 32 ∧ t.domain.origin.y < 2 ^ 32 ∧
  -(2 ^ 15) ≤ t.brightness ∧ t.brightness < 2 ^ 15 ∧ t.saturation < 2 ^ 64

/-- Representability of a `Compressed` by the Rust types (`u32` size
components, fewer than `2^32` transformations so every group count fits
the `u32` written by `Entry::serialize`). -/
def CompressedWf (c : Compressed ℕ) : Prop :=
  c.size.width < 2 ^ 32 ∧ c.size.height < 2 ^ 32 ∧
  c.transformations.length < 2 ^ 32 ∧ ∀ t ∈ c.transformations, TransWf t

end binary_v1

end Fractal

namespace Fractal

/-! ### `image/block.rs`: squared sub-blocks and tiling -/

/-- `SquaredBlock` from `image/block.rs`: a square sub-view of `image`
with side `size` starting at `origin`. -/
structure SquaredBlock where
  image : Img
  size : ℕ
  origin : Coords

/-- `SquaredBlock::pixel`:
`self.image.pixel(self.origin.x + x, self.origin.y + y)`.  The
`assert!(x < self.size)` guards are modelled by using the function only
at in-bounds coordinates in the claims. -/
def SquaredBlock.pixelB (b : SquaredBlock) (x y : ℕ) : ℕ :=
  b.image.pixel (b.origin.x + x) (b.origin.y + y)

/-- `SquaredBlock::get_size` (`Size::squared(self.size)`). -/
def SquaredBlock.get_size (b : SquaredBlock) : Size := Size.squared b.size

/-- `SquareSizeDoesNotDivideImageSize` from `image/block.rs`. -/
structure SquareSizeDoesNotDivideImageSize where
  image_size : Size
  size : ℕ
deriving DecidableEq, Repr

/-- `create_blocks` from `image/block.rs`: fails when `size` does not
divide a dimension; otherwise the `itertools` `cartesian_product` of the
block index ranges `(0..w/size) × (0..h/size)` (x outer, y inner), each
mapped to `Block { block_size: size, origin: (size * y, size * x) }` —
the source passes the coordinates positionally, so the first macro
argument `size * y` is the x coordinate.  (The Rust `%` by `size = 0`
panics; the claims constrain `0 < size`.  The `assert!(is_squared)` holds
at every call site the claims touch.) -/
def create_blocks (image_size : Size) (size : ℕ) :
    Except SquareSizeDoesNotDivideImageSize (List Block) :=
  if image_size.width % size ≠ 0 ∨ image_size.height % size ≠ 0 then
    .error ⟨image_size, size⟩
  else
    .ok ((List.range (image_size.width / size) ×ˢ
        List.range (image_size.height / size)).map
      fun p => ⟨size, ⟨size * p.2, size * p.1⟩⟩)

/-- `squared_blocks` on a `Square` view (`impl IntoSquaredBlocks for
&Square<I>`): tile the whole image, every block sharing the inner
image. -/
def squared_blocks (img : Img) (size : ℕ) :
    Except SquareSizeDoesNotDivideImageSize (List SquaredBlock) :=
  (create_blocks img.size size).map fun blocks =>
    blocks.map fun b => ⟨img, size, b.origin⟩

/-- `squared_blocks` on a `SquaredBlock` (`impl IntoSquaredBlocks for
&SquaredBlock<I>`): tile the block's own square size, origins shifted by
the block's origin (`block.origin + self.origin`), sharing the
*underlying* image (`as_inner`). -/
def SquaredBlock.squared_blocks (b : SquaredBlock) (size : ℕ) :
    Except SquareSizeDoesNotDivideImageSize (List SquaredBlock) :=
  (create_blocks (Size.squared b.size) size).map fun blocks =>
    blocks.map fun bl =>
      ⟨b.image, size, ⟨bl.origin.x + b.origin.x, bl.origin.y + b.origin.y⟩⟩

end Fractal

namespace Fractal

/-! ### `image/downscale.rs` -/

/-- The Rust `as u8` cast of an `f64`, applied to the exact rational
value of the float: a saturating truncation (negative values to 0,
values beyond 255 to 255, otherwise truncation toward zero, which on
non-negative values is the floor). -/
def f64ToU8 (q : ℚ) : ℕ := min 255 (Int.toNat ⌊max 0 q⌋)

/-- `Downscaled2x2::pixel` from `image/downscale.rs`: sum the four
source pixels at `(2x,2y), (2x+1,2y), (2x,2y+1), (2x+1,2y+1)` as `u32`,
then `(0.25 * sum as f64) as Pixel`.  The product `0.25 * sum` is exact
in `f64` — the integer `sum` is exactly representable and multiplying by
2⁻² only shifts the exponent — so the float step is the exact rational
`sum / 4`. -/
def downscale2x2Pixel (img : Img) (x y : ℕ) : ℕ :=
  let sum := img.pixel (2 * x) (2 * y) + img.pixel (2 * x + 1) (2 * y) +
    img.pixel (2 * x) (2 * y + 1) + img.pixel (2 * x + 1) (2 * y + 1)
  f64ToU8 ((1 / 4 : ℚ) * (sum : ℚ))

end Fractal

namespace Fractal

/-! ### Pixel iteration (`image.rs`, `PixelIterator`) and `metrics.rs` -/

/-- Row-major pixel enumeration (`PixelIterator`): `(x, y)` with `x`
fastest — the traversal `pixels()` performs on a `w × h` view.  (For a
zero-area view the Rust iterator would still visit the out-of-bounds
position `(0,0)` once and panic in the `pixel` assert; the claims only
evaluate non-empty views, where the model agrees with the source.) -/
def rowMajorPixels (w h : ℕ) (f : ℕ → ℕ → ℕ) : List ℕ :=
  (List.range h).flatMap fun y => (List.range w).map fun x => f x y

/-- `pixels()` of an `Img`. -/
def Img.pixels (img : Img) : List ℕ :=
  rowMajorPixels img.size.width img.size.height img.pixel

/-- `ImageSizeMismatch` from `metrics.rs`. -/
structure ImageSizeMismatch where
  first : Size
  second : Size
deriving DecidableEq, Repr

/-- `mse` from `metrics.rs`: `SizeMismatch` when the sizes differ, else
`Σ (aᵢ − bᵢ)² / area`.  Each term `(a as i64 − b as i64).pow(2) as f64`
is exact; the `f64` sum is modelled over `ℚ` (in the cases the claims
evaluate all terms are `0`, where `f64` addition is exact too, and a sum
of non-negative terms is `0` in `f64` iff it is `0` exactly). -/
def mse (a b : Img) : Except ImageSizeMismatch ℚ :=
  if a.size ≠ b.size then .error ⟨a.size, b.size⟩
  else
    .ok (((a.pixels.zip b.pixels).map
      fun p => ((p.1 : ℚ) - (p.2 : ℚ)) ^ 2).sum / (a.size.area : ℚ))

/-- The classification of an `f64` value that `psnr` needs: `NaN`, ±∞ or
finite.  The finite payload is not carried: `log₁₀` of a positive
rational is irrational, and the claims about `psnr` depend only on the
class. -/
inductive FClass where
  | nan
  | pinf
  | ninf
  | finite
deriving DecidableEq, Repr

/-- `f64::log10` at class level: `log10(0) = -∞`; a negative argument is
`NaN`; a positive (finite) argument is finite. -/
def log10Class (q : ℚ) : FClass :=
  if q = 0 then .ninf else if 0 < q then .finite else .nan

/-- Multiplying an `f64` by the positive finite constants `10`/`20` of
`psnr`, at class level (no overflow can arise: the finite arguments there
are `log₁₀` of values in `(0, 255²]`). -/
def mulPosClass : FClass → FClass
  | .nan => .nan
  | .pinf => .pinf
  | .ninf => .ninf
  | .finite => .finite

/-- `f64` subtraction at class level (IEEE-754: `(-∞) - (-∞) = NaN`,
`∞ - ∞ = NaN`; finite − finite cannot overflow on `psnr`'s values). -/
def subClass : FClass → FClass → FClass
  | .nan, _ => .nan
  | _, .nan => .nan
  | .pinf, .pinf => .nan
  | .pinf, _ => .pinf
  | .ninf, .ninf => .nan
  | .ninf, _ => .ninf
  | .finite, .pinf => .ninf
  | .finite, .ninf => .pinf
  | .finite, .finite => .finite

/-- `pixels().max().unwrap_or(0)` from `psnr`. -/
def maxPixel (img : Img) : ℕ := img.pixels.foldr max 0

/-- `psnr` from `metrics.rs`: `20·log10(max) − 10·log10(mse)` where
`max` is the larger maximal pixel of the two images, modelled at `f64`
class level. -/
def psnr (a b : Img) : Except ImageSizeMismatch FClass :=
  match mse a b with
  | .error e => .error e
  | .ok m =>
      .ok (subClass
        (mulPosClass (log10Class ((max (maxPixel a) (maxPixel b) : ℕ) : ℚ)))
        (mulPosClass (log10Class m)))

end Fractal

namespace Fractal

/-! ### `compress.rs`: the least-squares mapping solver

The solver loop accumulates five `f64` sums over the zipped pixel pairs
of the two views and combines them in closed form.  The arithmetic is
modelled exactly over `ℚ`; the counterexample below is evaluated at
small integers where every `f64` operation the source performs is exact.
-/

/-- `domain_sum` of the solver loop (`Σ d`). -/
def sumD (ps : List (ℕ × ℕ)) : ℚ := (ps.map fun p => (p.1 : ℚ)).sum

/-- `range_sum` (`Σ r`). -/
def sumR (ps : List (ℕ × ℕ)) : ℚ := (ps.map fun p => (p.2 : ℚ)).sum

/-- `domain_squared_sum` (`Σ d²`). -/
def sumDD (ps : List (ℕ × ℕ)) : ℚ := (ps.map fun p => (p.1 : ℚ) * p.1).sum

/-- `range_squared_sum` (`Σ r²`). -/
def sumRR (ps : List (ℕ × ℕ)) : ℚ := (ps.map fun p => (p.2 : ℚ) * p.2).sum

/-- `domain_times_range_sum` (`Σ d·r`). -/
def sumDR (ps : List (ℕ × ℕ)) : ℚ := (ps.map fun p => (p.1 : ℚ) * p.2).sum

/-- The solver's `denominator`: `n * domain_squared_sum −
domain_sum_squared`. -/
def denom (ps : List (ℕ × ℕ)) : ℚ :=
  (ps.length : ℚ) * sumDD ps - sumD ps * sumD ps

/-- The saturation `s` of `Mapping::compute`: `0` when the denominator
is zero, else `(n·S_dr − S_d·S_r) / denominator`. -/
def saturationOf (ps : List (ℕ × ℕ)) : ℚ :=
  if denom ps = 0 then 0
  else ((ps.length : ℚ) * sumDR ps - sumD ps * sumR ps) / denom ps

/-- The brightness of `Mapping::compute` *before* the clamp:
`S_r/n` when the denominator is zero, else `(S_r − s·S_d)/n`. -/
def brightnessRaw (ps : List (ℕ × ℕ)) : ℚ :=
  if denom ps = 0 then sumR ps / (ps.length : ℚ)
  else (sumR ps - saturationOf ps * sumD ps) / (ps.length : ℚ)

/-- `f64::clamp(lo, hi)` on the exact value. -/
def clampQ (q lo hi : ℚ) : ℚ := max lo (min hi q)

/-- `Mapping` from `compress.rs`.  `errorSq` holds the *squared* error;
the source stores `error.sqrt()` and only ever compares it against a
threshold, which the encoder model does on the squares (`√e < t ↔
e < t²` for `e ≥ 0 < t`, and `f64::sqrt` is correctly rounded, hence
monotone). -/
structure Mapping where
  errorSq : ℚ
  brightness : ℤ
  saturation : ℚ
deriving DecidableEq, Repr

/-- `Mapping::compute` from `compress.rs`, over the zipped pixel lists
of the two equally-sized views.  The clamped brightness is cast
`as i16`, a truncation which on the clamped range `[0, 255]` is the
floor.  Rejection (`None`) happens exactly when `|s| > 1`. -/
def Mapping.compute (ds rs : List ℕ) : Option Mapping :=
  let ps := ds.zip rs
  let n : ℚ := (ps.length : ℚ)
  let s := saturationOf ps
  let o := clampQ (brightnessRaw ps) 0 255
  let errSq := (sumRR ps +
    s * (s * sumDD ps - 2 * sumDR ps + 2 * o * sumD ps) +
    o * (n * o - 2 * sumR ps)) / n
  if 1 < |s| then none
  else some ⟨errSq, ⌊o⌋, s⟩

/-- The least-squares objective `Σ (s·d + o − r)²` over the zipped pixel
pairs, as a function of the affine coefficients. -/
def costP (ps : List (ℕ × ℕ)) (s o : ℚ) : ℚ :=
  (ps.map fun p => (s * (p.1 : ℚ) + o - (p.2 : ℚ)) ^ 2).sum

/-- The same objective over the two pixel lists (the spec's
`Σ(s·d+o−r)²`). -/
def lsqError (ds rs : List ℕ) (s o : ℚ) : ℚ := costP (ds.zip rs) s o

/-- `ErrorThreshold` from `compress/quadtree.rs`
(`RmsAnyLowerThan(f64)`). -/
structure ErrorThreshold where
  rmsAnyLowerThan : ℚ
deriving DecidableEq, Repr

/-- The acceptance test `mapping.error < acceptable_error` of
`Transformation::find`, on squared errors: `√e < t` iff `0 < t` and
`e < t²` (the solver's `e` is a quotient of the non-negative
least-squares minimum by `n`, so `e ≥ 0`). -/
def Mapping.accepted (m : Mapping) (thr : ErrorThreshold) : Bool :=
  decide (0 < thr.rmsAnyLowerThan ∧
    m.errorSq < thr.rmsAnyLowerThan * thr.rmsAnyLowerThan)

end Fractal

namespace Fractal

/-! ### The encoder's composed views and the quadtree compressor
(`compress/quadtree.rs`, `image/rotate.rs`) -/

/-- A `SquaredBlock` seen through the `Image` trait. -/
def SquaredBlock.toImg (b : SquaredBlock) : Img :=
  ⟨Size.squared b.size, b.pixelB⟩

/-- `Downscaled2x2<SquaredBlock<I>>` — the view `d.downscale_2x2()`
builds in `Transformation::find`. -/
structure Downscaled where
  inner : SquaredBlock

/-- Side of the downscaled view (`get_size = inner size / 2`, the
width-only division on a square size). -/
def Downscaled.side (d : Downscaled) : ℕ := d.inner.size / 2

/-- `Downscaled2x2::pixel` over the block source. -/
def Downscaled.pixelD (d : Downscaled) : ℕ → ℕ → ℕ :=
  downscale2x2Pixel d.inner.toImg

/-- `Rotated<Downscaled2x2<SquaredBlock<I>>>` — the candidate view. -/
structure Rotated where
  inner : Downscaled
  rotation : Rotation

/-- Side of the rotated view (transposition is a no-op on these square
views, so width = height = the downscaled side). -/
def Rotated.side (r : Rotated) : ℕ := r.inner.side

/-- `Rotated::pixel` from `image/rotate.rs`: `By0` passes through;
`By90` reads `(y, W−1−x)`; `By180` reads `(W−1−x, H−1−y)`; `By270`
reads `(H−1−y, x)`. -/
def Rotated.pixelR (r : Rotated) (x y : ℕ) : ℕ :=
  match r.rotation with
  | .by0 => r.inner.pixelD x y
  | .by90 => r.inner.pixelD y (r.side - 1 - x)
  | .by180 => r.inner.pixelD (r.side - 1 - x) (r.side - 1 - y)
  | .by270 => r.inner.pixelD (r.side - 1 - y) x

/-- `all_rotations` from `image/rotate.rs`. -/
def allRotations (d : Downscaled) : List Rotated :=
  [⟨d, .by0⟩, ⟨d, .by90⟩, ⟨d, .by180⟩, ⟨d, .by270⟩]

/-- `pixels()` of a candidate view. -/
def Rotated.pixels (r : Rotated) : List ℕ :=
  rowMajorPixels r.side r.side r.pixelR

/-- `CompressionError` from `compress/quadtree.rs`. -/
inductive CompressionError where
  | invalidSize (e : SquareSizeDoesNotDivideImageSize)
deriving DecidableEq, Repr

/-- `Transformation::find` from `compress/quadtree.rs`: build
`rotate(k, downscale2x2(d))` for every domain block `d` and every
rotation, keep the candidates whose `Mapping::compute` succeeds
(discarding `|s| > 1` rejections), and emit the transformation of a
candidate whose error beats the threshold.  The parallel `find_any`
returns an unspecified qualifying candidate; the model resolves the
schedule to the first in candidate order (every surviving candidate has
`|s| ≤ 1`, so the choice does not affect the invariant claims).  The
domain block recorded in the transformation is the *un-downscaled*
block (`db.inner().inner()`). -/
def Transformation.find (domain_blocks : List SquaredBlock)
    (range_block : SquaredBlock) (thr : ErrorThreshold) :
    Option (Transformation ℚ) :=
  let candidates := (domain_blocks.map Downscaled.mk).flatMap allRotations
  let mappings := candidates.filterMap fun db =>
    (Mapping.compute db.pixels range_block.toImg.pixels).map fun m => (db, m)
  match mappings.find? (fun dm => dm.2.accepted thr) with
  | none => none
  | some (db, m) =>
      some ⟨⟨range_block.size, range_block.origin⟩,
        ⟨db.inner.inner.size, db.inner.inner.origin⟩,
        db.rotation, m.brightness, m.saturation⟩

/-- `find_transformations_recursive` from `compress/quadtree.rs`.  The
structural fuel argument stands in for the well-founded recursion on the
range-block side: every recursive call halves `rb.size`, so the entry
fuel `rb.size + 1` used by `compress` is never exhausted and the
fuel-out branch is unreachable from `compress`.  (The `f64` halving
`(h as f64 / 2.0) as u32` is exactly `h / 2`.) -/
def findTransRecAux (img : Img) (thr : ErrorThreshold) :
    ℕ → SquaredBlock → Except CompressionError (List (Transformation ℚ))
  | 0, _ => .ok []
  | fuel + 1, rb =>
      match squared_blocks img (2 * rb.size) with
      | .error e => .error (.invalidSize e)
      | .ok domain_blocks =>
          match Transformation.find domain_blocks rb thr with
          | some t => .ok [t]
          | none =>
              if rb.size ≤ 1 then .ok []
              else
                match rb.squared_blocks (rb.size / 2) with
                | .error e => .error (.invalidSize e)
                | .ok nrbs =>
                    (nrbs.mapM (findTransRecAux img thr fuel)).map
                      List.flatten

/-- `Compressor::compress` from `compress/quadtree.rs` (the stats and
progress observer only feed the optional callback and are omitted):
domain blocks of side `height`, range blocks of side `height / 2`, then
the recursive search on every range block, results concatenated. -/
def compress (img : Img) (thr : ErrorThreshold) :
    Except CompressionError (Compressed ℚ) :=
  match squared_blocks img img.size.height with
  | .error e => .error (.invalidSize e)
  | .ok _ =>
      match squared_blocks img (img.size.height / 2) with
      | .error e => .error (.invalidSize e)
      | .ok range_blocks =>
          (range_blocks.mapM fun rb =>
            findTransRecAux img thr (rb.size + 1) rb).map fun ls =>
            ⟨img.size, ls.flatten⟩

end Fractal

namespace Fractal

/-! ### `image/owned.rs` and `decompress.rs` -/

/-- Modelled from the spec: the byte stream of the seeded `StdRng`
(`rand::prelude::StdRng::seed_from_u64` followed by
`rng.gen_range(0..256)` draws).  `StdRng`'s ChaCha12 core is external
`rand`-crate code, not part of this repository; the spec requires only a
*deterministic* function of the seed producing bytes in `0..=255`, which
any fixed function of this shape satisfies. -/
def stdRngByte (seed : ℕ) (i : ℕ) : ℕ :=
  (seed * 6364136223846793005 + i * 1442695040888963407) % 256

/-- `OwnedImage` from `image/owned.rs`: a size and the row-major pixel
buffer. -/
structure OwnedImage where
  size : Size
  data : List ℕ
deriving DecidableEq, Repr

/-- `OwnedImage::random_with_seed`: `size.area()` sequential draws from
the generator seeded with `seed`. -/
def OwnedImage.random_with_seed (size : Size) (seed : ℕ) : OwnedImage :=
  ⟨size, (List.range size.area).map (stdRngByte seed)⟩

/-- `OwnedImage::random` from `image/owned.rs`: the seed is
`size.area() as u64`. -/
def OwnedImage.random (size : Size) : OwnedImage :=
  OwnedImage.random_with_seed size size.area

/-- `OwnedImage`'s `Image::pixel` (row-major index `y·width + x`; the
source's bounds assert is modelled by a default that the claims never
reach). -/
def OwnedImage.pixel (img : OwnedImage) (x y : ℕ) : ℕ :=
  img.data.getD (y * img.size.width + x) 0

/-- `OwnedImage`'s `MutableImage::set_pixel`. -/
def OwnedImage.set_pixel (img : OwnedImage) (x y v : ℕ) : OwnedImage :=
  ⟨img.size, img.data.set (y * img.size.width + x) v⟩

/-- An `OwnedImage` through the `Image` trait. -/
def OwnedImage.toImg (img : OwnedImage) : Img := ⟨img.size, img.pixel⟩

/-- `Block::indices` from `model/block.rs`: for `i, j < block_size` the
pair of the buffer index `origin.y·image_width + origin.x +
image_height·i + j` (the source uses the *height* as the row stride
here) and the coordinate `(origin.x + j, origin.y + i)`. -/
def Block.indices (b : Block) (image_width image_height : ℕ) :
    List (ℕ × Coords) :=
  (List.range b.block_size).flatMap fun i =>
    (List.range b.block_size).map fun j =>
      (b.origin.y * image_width + b.origin.x + image_height * i + j,
       ⟨b.origin.x + j, b.origin.y + i⟩)

/-- `Options` from `decompress.rs` (`iterations: u8`). -/
structure Options where
  iterations : ℕ
  keep_each_iteration : Bool
deriving DecidableEq, Repr

/-- `Decompressed` from `decompress.rs`. -/
structure Decompressed where
  image : OwnedImage
  iterations : Option (List OwnedImage)
deriving DecidableEq, Repr

/-- `Transformation::apply_to` from `decompress.rs`: build
`rotate(k, downscale2x2(subblock(previous_pass, domain)))`, walk the
range block's `indices` zipped with the view's row-major pixels, and for
each pair write `(d·saturation + brightness).min(255).max(0) as u8` at
the range coordinate.  The `f64` affine step is modelled on the exact
rationals; the claims about `decompress` (determinism) do not depend on
its rounding. -/
def Transformation.apply_to (t : Transformation ℚ) (previous : OwnedImage)
    (image : OwnedImage) : OwnedImage :=
  let domain_block : SquaredBlock :=
    ⟨previous.toImg, t.domain.block_size, t.domain.origin⟩
  let view : Rotated := ⟨⟨domain_block⟩, t.rotation⟩
  let idx := t.range.indices image.size.width image.size.height
  (idx.zip view.pixels).foldl
    (fun img pc =>
      img.set_pixel pc.1.2.x pc.1.2.y
        (f64ToU8 ((pc.2 : ℚ) * t.saturation + (t.brightness : ℚ))))
    image

/-- `decompress` from `decompress.rs`: a raster seeded from the size's
area, then `iterations` sequential passes; each pass snapshots the
raster (`previous_pass`) and applies every transformation in insertion
order, optionally recording the raster after each pass. -/
def decompress (compressed : Compressed ℚ) (options : Options) :
    Decompressed :=
  let start := OwnedImage.random compressed.size
  let init : OwnedImage × Option (List OwnedImage) :=
    (start, if options.keep_each_iteration then some [] else none)
  let step := fun (st : OwnedImage × Option (List OwnedImage)) (_ : ℕ) =>
    let previous_pass := st.1
    let image := compressed.transformations.foldl
      (fun img t => t.apply_to previous_pass img) st.1
    (image, match st.2 with
      | none => none
      | some it => some (it ++ [image]))
  let fin := (List.range options.iterations).foldl step init
  ⟨fin.1, fin.2⟩

end Fractal

/-! ### Round-trip lemmas for the binary codec -/

namespace Fractal
namespace binary_v1

theorem readU32_writeU32 {n : ℕ} (rest : List ℕ) (h : n < 2 ^ 32) :
    readU32 (writeU32 n ++ rest) = some (n, rest) := by
  simp only [writeU32, List.cons_append, List.nil_append, readU32,
    Option.some.injEq, Prod.mk.injEq]
  exact ⟨by omega, trivial⟩

theorem readU64_writeU64 {n : ℕ} (rest : List ℕ) (h : n < 2 ^ 64) :
    readU64 (writeU64 n ++ rest) = some (n, rest) := by
  simp only [writeU64, List.cons_append, List.nil_append, readU64,
    Option.some.injEq, Prod.mk.injEq]
  exact ⟨by omega, trivial⟩

theorem readI16_writeI16 {b : ℤ} (rest : List ℕ)
    (h1 : -(2 ^ 15) ≤ b) (h2 : b < 2 ^ 15) :
    readI16 (writeI16 b ++ rest) = some (b, rest) := by
  simp only [writeI16, List.cons_append, List.nil_append, readI16,
    Option.some.injEq, Prod.mk.injEq]
  refine ⟨?_, trivial⟩
  have ht : (b % 65536).toNat % 256 + 256 * ((b % 65536).toNat / 256) =
      (b % 65536).toNat := by omega
  rw [ht]
  split <;> omega

theorem readChild_serialize (c : EntryChild) (rest : List ℕ) (h : ChildWf c) :
    readChild (c.serialize ++ rest) = some (c, rest) := by
  obtain ⟨h1, h2, h3, h4, h5, h6, h7, h8⟩ := h
  simp only [EntryChild.serialize, List.append_assoc, List.cons_append,
    List.nil_append]
  simp only [readChild, Option.bind_eq_bind,
    readU32_writeU32 _ h1, readU32_writeU32 _ h2, readU32_writeU32 _ h3,
    readU32_writeU32 _ h4, readU8,
    readI16_writeI16 _ h6 h7, readU64_writeU64 _ h8, Option.some_bind]

theorem readChildren_serialize (cs : List EntryChild) (rest : List ℕ)
    (h : ∀ c ∈ cs, ChildWf c) :
    readChildren cs.length (cs.flatMap EntryChild.serialize ++ rest) =
      some (cs, rest) := by
  induction cs with
  | nil => simp [readChildren]
  | cons c cs ih =>
      simp only [List.length_cons, List.flatMap_cons, List.append_assoc]
      simp only [readChildren, Option.bind_eq_bind,
        readChild_serialize c _ (h c (List.mem_cons_self c cs)),
        Option.some_bind,
        ih (fun x hx => h x (List.mem_cons_of_mem c hx))]

theorem fromChild_ok (k : ℕ) (c : EntryChild) (h : c.rotation < 4) :
    fromChild k c = .ok (reconChild k c) := by
  unfold fromChild reconChild
  match hr : c.rotation, h with
  | 0, _ => rfl
  | 1, _ => rfl
  | 2, _ => rfl
  | 3, _ => rfl

theorem childrenToTrans_ok (k : ℕ) (cs : List EntryChild)
    (h : ∀ c ∈ cs, c.rotation < 4) :
    childrenToTrans k cs = .ok (cs.map (reconChild k)) := by
  induction cs with
  | nil => rfl
  | cons c cs ih =>
      simp only [childrenToTrans,
        fromChild_ok k c (h c (List.mem_cons_self c cs)),
        ih (fun x hx => h x (List.mem_cons_of_mem c hx)), List.map_cons]

theorem deserializeLoop_serializeGroups (m : List (ℕ × List EntryChild))
    (h : MWf m) :
    deserializeLoop (serializeGroups m) = .ok (flatTransM m) := by
  induction m with
  | nil =>
      rw [deserializeLoop]
      rfl
  | cons g m ih =>
      obtain ⟨hk, hlen, hcs⟩ := h g (List.mem_cons_self g m)
      have hrest : MWf m := fun g' hg' => h g' (List.mem_cons_of_mem g hg')
      have hbytes : serializeGroups (g :: m) =
          writeU32 g.1 ++ (writeU32 g.2.length ++
            (g.2.flatMap EntryChild.serialize ++ serializeGroups m)) := by
        simp [serializeGroups, List.append_assoc]
      rw [deserializeLoop, hbytes, readU32_writeU32 _ hk]
      split
      · rename_i h1
        cases h1
      · rename_i k r1 h1
        simp only [Option.some.injEq, Prod.mk.injEq] at h1
        obtain ⟨rfl, rfl⟩ := h1
        split
        · rename_i h2
          rw [readU32_writeU32 _ hlen] at h2
          cases h2
        · rename_i cnt r2 h2
          rw [readU32_writeU32 _ hlen] at h2
          simp only [Option.some.injEq, Prod.mk.injEq] at h2
          obtain ⟨rfl, rfl⟩ := h2
          split
          · rename_i h3
            rw [readChildren_serialize _ _ hcs] at h3
            cases h3
          · rename_i children r3 h3
            rw [readChildren_serialize _ _ hcs] at h3
            simp only [Option.some.injEq, Prod.mk.injEq] at h3
            obtain ⟨rfl, rfl⟩ := h3
            rw [childrenToTrans_ok _ _ (fun c hc => (hcs c hc).2.2.2.2.1),
              ih hrest]
            simp [flatTransM]

end binary_v1
end Fractal

namespace Fractal
namespace binary_v1

theorem flatTransM_insertEntry (m : List (ℕ × List EntryChild)) (k : ℕ)
    (c : EntryChild) :
    List.Perm (flatTransM (insertEntry m k c)) (reconChild k c :: flatTransM m) := by
  induction m with
  | nil => exact List.Perm.refl _
  | cons g m ih =>
      obtain ⟨k', cs⟩ := g
      by_cases hk : k' = k
      · subst hk
        rw [insertEntry, if_pos rfl]
        simp only [flatTransM, List.flatMap_cons, List.map_append,
          List.map_cons, List.map_nil, List.append_assoc, List.singleton_append]
        exact List.perm_middle
      · rw [insertEntry, if_neg hk]
        simp only [flatTransM, List.flatMap_cons]
        exact (List.Perm.append_left _ ih).trans List.perm_middle

theorem reconChild_toChild (t : Transformation ℕ)
    (h : t.domain.block_size = 2 * t.range.block_size) :
    reconChild t.range.block_size (toChild t) = t := by
  obtain ⟨⟨rs, ro⟩, ⟨ds, dorg⟩, rot, br, sat⟩ := t
  simp only at h
  subst h
  cases rot <;> rfl

theorem generate_entries_perm (ts : List (Transformation ℕ)) :
    ∀ (acc m : List (ℕ × List EntryChild)),
    (∀ t ∈ ts, t.domain.block_size = 2 * t.range.block_size) →
    generate_entries ts acc = .ok m →
    List.Perm (flatTransM m) (flatTransM acc ++ ts) := by
  induction ts with
  | nil =>
      intro acc m _ hg
      simp only [generate_entries, Except.ok.injEq] at hg
      subst hg
      simp
  | cons t ts ih =>
      intro acc m h hg
      have h2x := h t (List.mem_cons_self t ts)
      rw [generate_entries, if_pos h2x] at hg
      have hp := ih _ _ (fun x hx => h x (List.mem_cons_of_mem t hx)) hg
      have hstep := List.Perm.append_right ts
        (flatTransM_insertEntry acc t.range.block_size (toChild t))
      rw [reconChild_toChild t h2x] at hstep
      exact hp.trans (hstep.trans List.perm_middle.symm)

theorem insertEntry_keys {Q : ℕ → Prop}
    {m : List (ℕ × List EntryChild)} {k : ℕ} {c : EntryChild}
    (hm : ∀ g ∈ m, Q g.1) (hk : Q k) :
    ∀ g ∈ insertEntry m k c, Q g.1 := by
  induction m with
  | nil =>
      intro g hg
      rcases List.mem_singleton.mp hg with hge
      rw [hge]
      exact hk
  | cons g' m ih =>
      obtain ⟨k', cs⟩ := g'
      intro g hg
      by_cases hkk : k' = k
      · subst hkk
        rw [insertEntry, if_pos rfl] at hg
        rcases List.mem_cons.mp hg with hge | hg
        · rw [hge]
          exact hm (k', cs) (List.mem_cons_self _ _)
        · exact hm g (List.mem_cons_of_mem _ hg)
      · rw [insertEntry, if_neg hkk] at hg
        rcases List.mem_cons.mp hg with hge | hg
        · rw [hge]
          exact hm _ (List.mem_cons_self _ _)
        · exact ih (fun x hx => hm x (List.mem_cons_of_mem _ hx)) g hg

theorem insertEntry_children {P : EntryChild → Prop}
    {m : List (ℕ × List EntryChild)} {k : ℕ} {c : EntryChild}
    (hm : ∀ g ∈ m, ∀ x ∈ g.2, P x) (hc : P c) :
    ∀ g ∈ insertEntry m k c, ∀ x ∈ g.2, P x := by
  induction m with
  | nil =>
      intro g hg x hx
      rcases List.mem_singleton.mp hg with hge
      rw [hge] at hx
      rcases List.mem_singleton.mp hx with hxe
      rw [hxe]
      exact hc
  | cons g' m ih =>
      obtain ⟨k', cs⟩ := g'
      intro g hg x hx
      by_cases hkk : k' = k
      · subst hkk
        rw [insertEntry, if_pos rfl] at hg
        rcases List.mem_cons.mp hg with hge | hg
        · rw [hge] at hx
          rcases List.mem_append.mp hx with hx | hxe
          · exact hm _ (List.mem_cons_self _ _) x hx
          · rcases List.mem_singleton.mp hxe with hxe
            rw [hxe]
            exact hc
        · exact hm g (List.mem_cons_of_mem _ hg) x hx
      · rw [insertEntry, if_neg hkk] at hg
        rcases List.mem_cons.mp hg with hge | hg
        · rw [hge] at hx
          exact hm _ (List.mem_cons_self _ _) x hx
        · exact ih (fun y hy => hm y (List.mem_cons_of_mem _ hy)) g hg x hx

theorem sumLens_insertEntry (m : List (ℕ × List EntryChild)) (k : ℕ)
    (c : EntryChild) : sumLens (insertEntry m k c) = sumLens m + 1 := by
  induction m with
  | nil => simp [insertEntry, sumLens]
  | cons g m ih =>
      obtain ⟨k', cs⟩ := g
      by_cases hk : k' = k
      · subst hk
        simp [insertEntry, sumLens]
        omega
      · simp only [insertEntry, if_neg hk, sumLens, List.map_cons, List.sum_cons]
        simp only [sumLens] at ih
        omega

theorem length_le_sumLens {m : List (ℕ × List EntryChild)} :
    ∀ g ∈ m, g.2.length ≤ sumLens m := by
  induction m with
  | nil => intro g hg; simp at hg
  | cons g' m ih =>
      intro g hg
      simp only [List.mem_cons] at hg
      simp only [sumLens, List.map_cons, List.sum_cons]
      rcases hg with rfl | hg
      · omega
      · have := ih g hg
        simp only [sumLens] at this
        omega

theorem generate_entries_keys {Q : ℕ → Prop} (ts : List (Transformation ℕ)) :
    ∀ acc m, (∀ t ∈ ts, Q t.range.block_size) → (∀ g ∈ acc, Q g.1) →
    generate_entries ts acc = .ok m → ∀ g ∈ m, Q g.1 := by
  induction ts with
  | nil =>
      intro acc m _ hacc hg
      simp only [generate_entries, Except.ok.injEq] at hg
      subst hg
      exact hacc
  | cons t ts ih =>
      intro acc m h hacc hg
      rw [generate_entries] at hg
      split at hg
      · exact ih _ _ (fun x hx => h x (List.mem_cons_of_mem t hx))
          (insertEntry_keys hacc (h t (List.mem_cons_self t ts))) hg
      · cases hg

theorem generate_entries_children {P : EntryChild → Prop}
    (ts : List (Transformation ℕ)) :
    ∀ acc m, (∀ t ∈ ts, P (toChild t)) → (∀ g ∈ acc, ∀ x ∈ g.2, P x) →
    generate_entries ts acc = .ok m → ∀ g ∈ m, ∀ x ∈ g.2, P x := by
  induction ts with
  | nil =>
      intro acc m _ hacc hg
      simp only [generate_entries, Except.ok.injEq] at hg
      subst hg
      exact hacc
  | cons t ts ih =>
      intro acc m h hacc hg
      rw [generate_entries] at hg
      split at hg
      · exact ih _ _ (fun x hx => h x (List.mem_cons_of_mem t hx))
          (insertEntry_children hacc (h t (List.mem_cons_self t ts))) hg
      · cases hg

theorem generate_entries_sumLens (ts : List (Transformation ℕ)) :
    ∀ acc m, generate_entries ts acc = .ok m →
    sumLens m = sumLens acc + ts.length := by
  induction ts with
  | nil =>
      intro acc m hg
      simp only [generate_entries, Except.ok.injEq] at hg
      subst hg
      simp
  | cons t ts ih =>
      intro acc m hg
      rw [generate_entries] at hg
      split at hg
      · have := ih _ _ hg
        rw [this, sumLens_insertEntry]
        simp only [List.length_cons]
        omega
      · cases hg

theorem generate_entries_total (ts : List (Transformation ℕ)) :
    ∀ acc, (∀ t ∈ ts, t.domain.block_size = 2 * t.range.block_size) →
    ∃ m, generate_entries ts acc = .ok m := by
  induction ts with
  | nil => intro acc _; exact ⟨acc, rfl⟩
  | cons t ts ih =>
      intro acc h
      rw [generate_entries, if_pos (h t (List.mem_cons_self t ts))]
      exact ih _ (fun x hx => h x (List.mem_cons_of_mem t hx))

theorem generate_entries_error_iff (ts : List (Transformation ℕ)) :
    ∀ acc, (∃ e, generate_entries ts acc = .error e) ↔
      ∃ t ∈ ts, t.domain.block_size ≠ 2 * t.range.block_size := by
  induction ts with
  | nil =>
      intro acc
      simp [generate_entries]
  | cons t ts ih =>
      intro acc
      rw [generate_entries]
      by_cases h2x : t.domain.block_size = 2 * t.range.block_size
      · rw [if_pos h2x, ih]
        constructor
        · rintro ⟨x, hx, hne⟩
          exact ⟨x, List.mem_cons_of_mem t hx, hne⟩
        · rintro ⟨x, hx, hne⟩
          rcases List.mem_cons.mp hx with rfl | hx
          · exact absurd h2x hne
          · exact ⟨x, hx, hne⟩
      · rw [if_neg h2x]
        constructor
        · intro _
          exact ⟨t, List.mem_cons_self t ts, h2x⟩
        · intro _
          exact ⟨_, rfl⟩

theorem childWf_toChild {t : Transformation ℕ} (h : TransWf t) :
    ChildWf (toChild t) := by
  obtain ⟨rg, dm, rot, br, sat⟩ := t
  obtain ⟨h1, h2, h3, h4, h5, h6, h7, h8⟩ := h
  refine ⟨h2, h3, h4, h5, ?_, h6, h7, h8⟩
  cases rot <;> norm_num [toChild, Rotation.toU8]

end binary_v1
end Fractal

namespace Fractal
namespace binary_v1

/-- Everything `generate_entries` produces from a representable
`Compressed` satisfies the wire bounds. -/
theorem generate_entries_MWf {C : Compressed ℕ} {m : List (ℕ × List EntryChild)}
    (hwf : CompressedWf C)
    (hm : generate_entries C.transformations [] = .ok m) : MWf m := by
  obtain ⟨hw, hh, hlen, hts⟩ := hwf
  intro g hg
  refine ⟨?_, ?_, ?_⟩
  · exact generate_entries_keys (Q := fun n => n < 2 ^ 32) C.transformations [] m
      (fun t ht => (hts t ht).1) (by intro g' hg'; cases hg') hm g hg
  · have hsum := generate_entries_sumLens C.transformations [] m hm
    have hle := length_le_sumLens g hg
    simp only [sumLens, List.map_nil, List.sum_nil] at hsum
    simp only [sumLens] at hle hsum
    omega
  · exact generate_entries_children (P := ChildWf) C.transformations [] m
      (fun t ht => childWf_toChild (hts t ht)) (by intro g' hg'; cases hg') hm g hg

end binary_v1
end Fractal

/-! ## Claim theorems -/

/-- C10: `Size` division and multiplication by a `u32` compute both result
components from the width: `Size{w,h} / n = Size{w/n, w/n}` and
`Size{w,h} * n = Size{w*n, w*n}` for every size and every non-zero `n`,
and consequently `Downscaled2x2::get_size` reports `(w/2, w/2)` for every
source image. -/
theorem C10_size_div_mul_width_only (s : Fractal.Size) (n : ℕ) (hn : n ≠ 0)
    (img : Fractal.Img) :
    s.div n = ⟨s.width / n, s.width / n⟩ ∧
    s.mul n = ⟨s.width * n, s.width * n⟩ ∧
    Fractal.downscaledSize img =
      ⟨img.size.width / 2, img.size.width / 2⟩ := by
  refine ⟨rfl, rfl, rfl⟩

/-- Witness for C10 at a concrete non-square size and image. -/
theorem C10_size_div_mul_width_only_witness :
    (2 : ℕ) ≠ 0 ∧
    (Fractal.Size.mk 6 10).div 2 = ⟨3, 3⟩ ∧
    (Fractal.Size.mk 6 10).mul 2 = ⟨12, 12⟩ ∧
    Fractal.downscaledSize ⟨⟨6, 10⟩, fun _ _ => 0⟩ = ⟨3, 3⟩ :=
  ⟨by decide,
   (C10_size_div_mul_width_only ⟨6, 10⟩ 2 (by decide) ⟨⟨6, 10⟩, fun _ _ => 0⟩).1,
   (C10_size_div_mul_width_only ⟨6, 10⟩ 2 (by decide) ⟨⟨6, 10⟩, fun _ _ => 0⟩).2.1,
   (C10_size_div_mul_width_only ⟨6, 10⟩ 2 (by decide) ⟨⟨6, 10⟩, fun _ _ => 0⟩).2.2⟩

/-- C1: for every `Compressed` in which every transformation satisfies
`domain.block_size == 2 * range.block_size` (and whose fields fit the
Rust integer types), the binary-v1 round-trip succeeds,
`deserialize(serialize(C)).size == C.size`, and the multiset of the
deserialized transformations equals the multiset of `C`'s — bit exact on
every integer field, the rotation, and the 64-bit saturation pattern —
though not necessarily in the original sequence order. -/
theorem C1_binary_roundtrip (C : Fractal.Compressed ℕ)
    (hwf : Fractal.binary_v1.CompressedWf C)
    (h2x : ∀ t ∈ C.transformations,
      t.domain.block_size = 2 * t.range.block_size) :
    ∃ bs C', Fractal.binary_v1.serialize C = .ok bs ∧
      Fractal.binary_v1.deserialize bs = Fractal.binary_v1.DRes.ok C' ∧
      C'.size = C.size ∧
      (C'.transformations : Multiset (Fractal.Transformation ℕ)) =
        (C.transformations : Multiset (Fractal.Transformation ℕ)) := by
  obtain ⟨m, hm⟩ :=
    Fractal.binary_v1.generate_entries_total C.transformations [] h2x
  have hMwf := Fractal.binary_v1.generate_entries_MWf hwf hm
  obtain ⟨hw, hh, -, -⟩ := hwf
  refine ⟨Fractal.writeU32 C.size.width ++ Fractal.writeU32 C.size.height ++
      Fractal.binary_v1.serializeGroups m,
    ⟨⟨C.size.width, C.size.height⟩, Fractal.binary_v1.flatTransM m⟩,
    ?_, ?_, rfl, ?_⟩
  · simp [Fractal.binary_v1.serialize, hm]
  · simp only [Fractal.binary_v1.deserialize, List.append_assoc,
      Fractal.binary_v1.readU32_writeU32 _ hw,
      Fractal.binary_v1.readU32_writeU32 _ hh,
      Fractal.binary_v1.deserializeLoop_serializeGroups m hMwf]
  · have hp :=
      Fractal.binary_v1.generate_entries_perm C.transformations [] m h2x hm
    simp only [Fractal.binary_v1.flatTransM, List.flatMap_nil,
      List.nil_append] at hp
    exact Multiset.coe_eq_coe.mpr hp

/-- Witness for C1: a concrete two-transformation `Compressed`
round-trips. -/
theorem C1_binary_roundtrip_witness :
    ∃ bs C',
      Fractal.binary_v1.serialize
        ⟨⟨7, 9⟩, [⟨⟨4, ⟨1, 2⟩⟩, ⟨8, ⟨3, 4⟩⟩, Fractal.Rotation.by90, -5, 999⟩]⟩ =
          .ok bs ∧
      Fractal.binary_v1.deserialize bs = Fractal.binary_v1.DRes.ok C' ∧
      C'.size = (⟨⟨7, 9⟩,
        [⟨⟨4, ⟨1, 2⟩⟩, ⟨8, ⟨3, 4⟩⟩, Fractal.Rotation.by90, -5, 999⟩]⟩ :
          Fractal.Compressed ℕ).size ∧
      (C'.transformations : Multiset (Fractal.Transformation ℕ)) =
        ((⟨⟨7, 9⟩,
          [⟨⟨4, ⟨1, 2⟩⟩, ⟨8, ⟨3, 4⟩⟩, Fractal.Rotation.by90, -5, 999⟩]⟩ :
            Fractal.Compressed ℕ).transformations :
          Multiset (Fractal.Transformation ℕ)) :=
  C1_binary_roundtrip _
    (by unfold Fractal.binary_v1.CompressedWf Fractal.binary_v1.TransWf; decide)
    (by decide)

/-- C2: binary-v1 serialization fails — always with `InvalidBlockSize` —
iff some transformation has `domain.block_size ≠ 2 * range.block_size`;
when every transformation satisfies the 2× relation it succeeds (the
`Vec<u8>` writer cannot fail). -/
theorem C2_serialize_invalid_block_size_iff (C : Fractal.Compressed ℕ) :
    ((∃ rs ds, Fractal.binary_v1.serialize C =
        .error (Fractal.binary_v1.SerializationError.invalidBlockSize rs ds)) ↔
      ∃ t ∈ C.transformations,
        t.domain.block_size ≠ 2 * t.range.block_size) ∧
    ((∀ t ∈ C.transformations,
        t.domain.block_size = 2 * t.range.block_size) →
      ∃ bs, Fractal.binary_v1.serialize C = .ok bs) := by
  constructor
  · constructor
    · rintro ⟨rs, ds, h⟩
      rcases hgen : Fractal.binary_v1.generate_entries C.transformations []
        with e | m
      · exact (Fractal.binary_v1.generate_entries_error_iff
          C.transformations []).mp ⟨e, hgen⟩
      · rw [Fractal.binary_v1.serialize, hgen] at h
        cases h
    · rintro ⟨t, ht, hne⟩
      obtain ⟨e, hgen⟩ := (Fractal.binary_v1.generate_entries_error_iff
        C.transformations []).mpr ⟨t, ht, hne⟩
      cases e with
      | invalidBlockSize rs ds =>
          exact ⟨rs, ds, by simp [Fractal.binary_v1.serialize, hgen]⟩
  · intro h2x
    obtain ⟨m, hm⟩ :=
      Fractal.binary_v1.generate_entries_total C.transformations [] h2x
    refine ⟨Fractal.writeU32 C.size.width ++ Fractal.writeU32 C.size.height ++
      Fractal.binary_v1.serializeGroups m, ?_⟩
    rw [Fractal.binary_v1.serialize, hm]

/-- Witness for C2: a `Compressed` holding a transformation with
`domain.block_size = 4 * range.block_size` serializes to
`InvalidBlockSize`, and one satisfying the 2× relation serializes. -/
theorem C2_serialize_invalid_block_size_iff_witness :
    (∃ rs ds, Fractal.binary_v1.serialize
        ⟨⟨1, 1⟩, [⟨⟨16, ⟨0, 0⟩⟩, ⟨64, ⟨0, 0⟩⟩, Fractal.Rotation.by0, 0, 0⟩]⟩ =
        .error (Fractal.binary_v1.SerializationError.invalidBlockSize rs ds)) ∧
    (∃ bs, Fractal.binary_v1.serialize
        ⟨⟨1, 1⟩, [⟨⟨16, ⟨0, 0⟩⟩, ⟨32, ⟨0, 0⟩⟩, Fractal.Rotation.by0, 0, 0⟩]⟩ =
        .ok bs) :=
  ⟨(C2_serialize_invalid_block_size_iff _).1.mpr
      ⟨⟨⟨16, ⟨0, 0⟩⟩, ⟨64, ⟨0, 0⟩⟩, Fractal.Rotation.by0, 0, 0⟩,
        by decide, by decide⟩,
   (C2_serialize_invalid_block_size_iff _).2 (by decide)⟩

/-- C3 (failing input): the source's `deserialize` calls `.unwrap()` on
the two header reads, so a stream too short to contain the 8-byte
width/height header *aborts* (panics) instead of returning the typed IO
error the specification requires. -/
theorem C3_deserialize_short_header_aborts :
    Fractal.binary_v1.deserialize [0, 0, 0, 0, 0, 0, 0] =
      Fractal.binary_v1.DRes.aborted := rfl

/-- C6: on an `N×N` image, `squared_blocks(S)` with `S` dividing `N`
returns exactly `(N/S)²` pairwise-distinct blocks, each an `S×S`
sub-view whose pixel function reads the source at the origin-translated
coordinates, and every source pixel is reached by exactly one
(block, in-block position) pair; when `S` does not divide `N` it fails
with `SquareSizeDoesNotDivideImageSize`. -/
theorem C6_squared_blocks_tiling (img : Fractal.Img) (N S : ℕ)
    (hsq : img.size = Fractal.Size.squared N) (hS : 0 < S) :
    (S ∣ N →
      ∃ blocks, Fractal.squared_blocks img S = .ok blocks ∧
        blocks.length = (N / S) ^ 2 ∧
        blocks.Nodup ∧
        (∀ b ∈ blocks, b.size = S ∧ b.image = img ∧
          ∀ x y : ℕ,
            b.pixelB x y = img.pixel (b.origin.x + x) (b.origin.y + y)) ∧
        (∀ u v : ℕ, u < N → v < N →
          ∃! p : Fractal.SquaredBlock × ℕ × ℕ,
            p.1 ∈ blocks ∧ p.2.1 < S ∧ p.2.2 < S ∧
            p.1.origin.x + p.2.1 = u ∧ p.1.origin.y + p.2.2 = v)) ∧
    (¬ S ∣ N →
      Fractal.squared_blocks img S = .error ⟨Fractal.Size.squared N, S⟩) := by
  constructor
  · intro hdvd
    have hmod : N % S = 0 := Nat.mod_eq_zero_of_dvd hdvd
    have hcond : ¬((Fractal.Size.squared N).width % S ≠ 0 ∨
        (Fractal.Size.squared N).height % S ≠ 0) := by
      simp [Fractal.Size.squared, hmod]
    refine ⟨(List.range (N / S) ×ˢ List.range (N / S)).map
        (fun p => ⟨img, S, ⟨S * p.2, S * p.1⟩⟩), ?_, ?_, ?_, ?_, ?_⟩
    · rw [Fractal.squared_blocks, hsq, Fractal.create_blocks, if_neg hcond]
      simp only [Except.map, List.map_map]
      rfl
    · simp [List.length_map, List.length_product, List.length_range, pow_two]
    · apply List.Nodup.map
      · intro p q hpq
        simp only [Fractal.SquaredBlock.mk.injEq] at hpq
        obtain ⟨-, -, ho⟩ := hpq
        simp only [Fractal.Coords.mk.injEq] at ho
        obtain ⟨h2, h1⟩ := ho
        exact Prod.ext (Nat.eq_of_mul_eq_mul_left hS h1)
          (Nat.eq_of_mul_eq_mul_left hS h2)
      · exact List.Nodup.product (List.nodup_range _) (List.nodup_range _)
    · intro b hb
      simp only [List.mem_map] at hb
      obtain ⟨p, -, rfl⟩ := hb
      exact ⟨rfl, rfl, fun x y => rfl⟩
    · intro u v hu hv
      have hu' : u / S < N / S := Nat.div_lt_div_of_lt_of_dvd hdvd hu
      have hv' : v / S < N / S := Nat.div_lt_div_of_lt_of_dvd hdvd hv
      refine ⟨⟨⟨img, S, ⟨S * (u / S), S * (v / S)⟩⟩, (u % S, v % S)⟩,
        ⟨?_, Nat.mod_lt _ hS, Nat.mod_lt _ hS, Nat.div_add_mod u S,
          Nat.div_add_mod v S⟩, ?_⟩
      · simp only [List.mem_map]
        exact ⟨(v / S, u / S), List.mem_product.mpr
          ⟨List.mem_range.mpr hv', List.mem_range.mpr hu'⟩, rfl⟩
      · rintro ⟨b, x, y⟩ ⟨hbmem, hx, hy, hex, hey⟩
        simp only [List.mem_map] at hbmem
        obtain ⟨p, -, rfl⟩ := hbmem
        simp only at hex hey hx hy
        have e1 : u / S = p.2 := by
          rw [← hex, Nat.mul_add_div hS, Nat.div_eq_of_lt hx, Nat.add_zero]
        have e2 : x = u % S := by
          rw [← hex, Nat.mul_add_mod, Nat.mod_eq_of_lt hx]
        have e3 : v / S = p.1 := by
          rw [← hey, Nat.mul_add_div hS, Nat.div_eq_of_lt hy, Nat.add_zero]
        have e4 : y = v % S := by
          rw [← hey, Nat.mul_add_mod, Nat.mod_eq_of_lt hy]
        rw [e2, e4, ← e1, ← e3]
  · intro hndvd
    have hmod : N % S ≠ 0 := fun h => hndvd (Nat.dvd_of_mod_eq_zero h)
    rw [Fractal.squared_blocks, hsq, Fractal.create_blocks, if_pos
      (Or.inl (by simpa [Fractal.Size.squared] using hmod))]
    rfl

/-- Witness for C6 on a concrete 4×4 image with `S = 2` (success case)
and `S = 3` (failure case). -/
theorem C6_squared_blocks_tiling_witness :
    ((2 : ℕ) ∣ 4 →
      ∃ blocks,
        Fractal.squared_blocks ⟨⟨4, 4⟩, fun x y => 4 * y + x⟩ 2 = .ok blocks ∧
        blocks.length = (4 / 2) ^ 2 ∧
        blocks.Nodup ∧
        (∀ b ∈ blocks, b.size = 2 ∧
          b.image = (⟨⟨4, 4⟩, fun x y => 4 * y + x⟩ : Fractal.Img) ∧
          ∀ x y : ℕ, b.pixelB x y =
            (⟨⟨4, 4⟩, fun x y => 4 * y + x⟩ : Fractal.Img).pixel
              (b.origin.x + x) (b.origin.y + y)) ∧
        (∀ u v : ℕ, u < 4 → v < 4 →
          ∃! p : Fractal.SquaredBlock × ℕ × ℕ,
            p.1 ∈ blocks ∧ p.2.1 < 2 ∧ p.2.2 < 2 ∧
            p.1.origin.x + p.2.1 = u ∧ p.1.origin.y + p.2.2 = v)) ∧
    (¬ (2 : ℕ) ∣ 4 →
      Fractal.squared_blocks ⟨⟨4, 4⟩, fun x y => 4 * y + x⟩ 2 =
        .error ⟨Fractal.Size.squared 4, 2⟩) :=
  C6_squared_blocks_tiling ⟨⟨4, 4⟩, fun x y => 4 * y + x⟩ 4 2 rfl (by decide)

/-- C7: on a `2k×2k` source, for `x, y < k` the downscaled pixel — the
`f64` computation `(0.25 * sum) as u8` — coincides exactly with the
integer floor division of the four-pixel sum by 4. -/
theorem C7_downscale_floor (img : Fractal.Img) (k x y : ℕ)
    (hwf : img.Wf) (hsz : img.size = Fractal.Size.squared (2 * k))
    (hx : x < k) (hy : y < k) :
    Fractal.downscale2x2Pixel img x y =
      (img.pixel (2 * x) (2 * y) + img.pixel (2 * x + 1) (2 * y) +
       img.pixel (2 * x) (2 * y + 1) + img.pixel (2 * x + 1) (2 * y + 1)) / 4 := by
  have ha := hwf (2 * x) (2 * y)
  have hb := hwf (2 * x + 1) (2 * y)
  have hc := hwf (2 * x) (2 * y + 1)
  have hd := hwf (2 * x + 1) (2 * y + 1)
  set sum := img.pixel (2 * x) (2 * y) + img.pixel (2 * x + 1) (2 * y) +
    img.pixel (2 * x) (2 * y + 1) + img.pixel (2 * x + 1) (2 * y + 1) with hsum
  have h1 : (1 / 4 : ℚ) * (sum : ℚ) = ((sum : ℤ) : ℚ) / ((4 : ℕ) : ℚ) := by
    push_cast
    ring
  have h2 : (0 : ℚ) ≤ (1 / 4 : ℚ) * (sum : ℚ) := by positivity
  rw [Fractal.downscale2x2Pixel, Fractal.f64ToU8, ← hsum, max_eq_right h2, h1,
    Rat.floor_intCast_div_natCast]
  have h3 : ((sum : ℤ) / ((4 : ℕ) : ℤ)).toNat = sum / 4 := by omega
  rw [h3]
  have h4 : sum / 4 ≤ 255 := by omega
  omega

/-- Witness for C7 on the 4×4 image `p(x,y) = 4y + x` at `(1,1)`
(the spec's E7 example: `(10+11+14+15)/4 = 12`). -/
theorem C7_downscale_floor_witness :
    Fractal.downscale2x2Pixel ⟨⟨4, 4⟩, fun x y => (4 * y + x) % 256⟩ 1 1 =
      ((⟨⟨4, 4⟩, fun x y => (4 * y + x) % 256⟩ : Fractal.Img).pixel 2 2 +
       (⟨⟨4, 4⟩, fun x y => (4 * y + x) % 256⟩ : Fractal.Img).pixel 3 2 +
       (⟨⟨4, 4⟩, fun x y => (4 * y + x) % 256⟩ : Fractal.Img).pixel 2 3 +
       (⟨⟨4, 4⟩, fun x y => (4 * y + x) % 256⟩ : Fractal.Img).pixel 3 3) / 4 :=
  C7_downscale_floor ⟨⟨4, 4⟩, fun x y => (4 * y + x) % 256⟩ 2 1 1
    (fun x y => by show (4 * y + x) % 256 ≤ 255; omega) rfl (by decide) (by decide)

namespace Fractal

/-- Zipping a pixel list with itself makes every squared difference `0`. -/
theorem zip_self_sq_sum_zero (l : List ℕ) :
    ((l.zip l).map fun p => ((p.1 : ℚ) - (p.2 : ℚ)) ^ 2).sum = 0 := by
  induction l with
  | nil => rfl
  | cons x l ih => simp [List.zip_cons_cons, ih]

/-- `mse(A, A) = Ok(0)`: every summand of the squared-difference sum is
zero (so the `f64` sum is exactly zero as well). -/
theorem mse_self (a : Img) : mse a a = .ok 0 := by
  rw [mse, if_neg (by simp), zip_self_sq_sum_zero]
  simp

/-- `psnr(A, A) = +∞` when some pixel of `A` is non-zero. -/
theorem psnr_self_pos (a : Img) (hmax : 0 < maxPixel a) :
    psnr a a = .ok FClass.pinf := by
  have h1 : log10Class ((maxPixel a : ℕ) : ℚ) = FClass.finite := by
    rw [log10Class, if_neg (Nat.cast_ne_zero.mpr (Nat.pos_iff_ne_zero.mp hmax)),
      if_pos (by exact_mod_cast hmax)]
  simp only [psnr, mse_self, Nat.max_self, h1]
  rfl

/-- `psnr(A, A) = NaN` when every pixel of `A` is zero: both `log10`
arguments are `0`, so the result is `(-∞) - (-∞)`. -/
theorem psnr_self_zero (a : Img) (hmax : maxPixel a = 0) :
    psnr a a = .ok FClass.nan := by
  simp only [psnr, mse_self, hmax, Nat.max_self]
  rfl

end Fractal

/-- C9 counterexample: for the all-zero 1×1 image `A`, `mse(A,A) = 0`
but `psnr(A,A)` is `20·log10(0) − 10·log10(0) = (−∞) − (−∞) = NaN`, not
the `+∞` the claim asserts for every image. -/
theorem C9_psnr_all_zero_nan :
    Fractal.psnr ⟨⟨1, 1⟩, fun _ _ => 0⟩ ⟨⟨1, 1⟩, fun _ _ => 0⟩ =
      .ok Fractal.FClass.nan ∧
    Fractal.FClass.nan ≠ Fractal.FClass.pinf :=
  ⟨Fractal.psnr_self_zero _ (by decide), by decide⟩

/-- C9 (amended): for non-empty images, `mse(A,A) = Ok(0)`; `mse` and
`psnr` fail with `SizeMismatch` iff the sizes differ; `psnr(A,A) = +∞`
whenever some pixel of `A` is non-zero; and when every pixel of `A` is
zero, `psnr(A,A)` is `NaN` instead of `+∞`. -/
theorem C9_metric_identities (a b : Fractal.Img)
    (haw : 0 < a.size.width) (hah : 0 < a.size.height) :
    Fractal.mse a a = .ok 0 ∧
    ((∃ e, Fractal.mse a b = .error e) ↔ a.size ≠ b.size) ∧
    ((∃ e, Fractal.psnr a b = .error e) ↔ a.size ≠ b.size) ∧
    (0 < Fractal.maxPixel a → Fractal.psnr a a = .ok Fractal.FClass.pinf) ∧
    (Fractal.maxPixel a = 0 → Fractal.psnr a a = .ok Fractal.FClass.nan) := by
  refine ⟨Fractal.mse_self a, ?_, ?_, Fractal.psnr_self_pos a,
    Fractal.psnr_self_zero a⟩
  · by_cases hsz : a.size = b.size
    · rw [Fractal.mse, if_neg (by simp [hsz])]
      simp [hsz]
    · rw [Fractal.mse, if_pos hsz]
      simp [hsz]
  · by_cases hsz : a.size = b.size
    · have hok : Fractal.mse a b = .ok (((a.pixels.zip b.pixels).map
          fun p => ((p.1 : ℚ) - (p.2 : ℚ)) ^ 2).sum / (a.size.area : ℚ)) := by
        rw [Fractal.mse, if_neg (by simp [hsz])]
      simp [Fractal.psnr, hok, hsz]
    · have herr : Fractal.mse a b = .error ⟨a.size, b.size⟩ := by
        rw [Fractal.mse, if_pos hsz]
      simp only [Fractal.psnr, herr]
      simp [hsz]

/-- Witness for C9 at a concrete non-empty image (max pixel 5) and a
differently-sized second image. -/
theorem C9_metric_identities_witness :
    Fractal.mse ⟨⟨2, 1⟩, fun _ _ => 5⟩ ⟨⟨2, 1⟩, fun _ _ => 5⟩ = .ok 0 ∧
    ((∃ e, Fractal.mse ⟨⟨2, 1⟩, fun _ _ => 5⟩ ⟨⟨1, 1⟩, fun _ _ => 0⟩ =
        .error e) ↔
      (⟨⟨2, 1⟩, fun _ _ => 5⟩ : Fractal.Img).size ≠
        (⟨⟨1, 1⟩, fun _ _ => 0⟩ : Fractal.Img).size) ∧
    ((∃ e, Fractal.psnr ⟨⟨2, 1⟩, fun _ _ => 5⟩ ⟨⟨1, 1⟩, fun _ _ => 0⟩ =
        .error e) ↔
      (⟨⟨2, 1⟩, fun _ _ => 5⟩ : Fractal.Img).size ≠
        (⟨⟨1, 1⟩, fun _ _ => 0⟩ : Fractal.Img).size) ∧
    (0 < Fractal.maxPixel ⟨⟨2, 1⟩, fun _ _ => 5⟩ →
      Fractal.psnr ⟨⟨2, 1⟩, fun _ _ => 5⟩ ⟨⟨2, 1⟩, fun _ _ => 5⟩ =
        .ok Fractal.FClass.pinf) ∧
    (Fractal.maxPixel ⟨⟨2, 1⟩, fun _ _ => 5⟩ = 0 →
      Fractal.psnr ⟨⟨2, 1⟩, fun _ _ => 5⟩ ⟨⟨2, 1⟩, fun _ _ => 5⟩ =
        .ok Fractal.FClass.nan) :=
  C9_metric_identities ⟨⟨2, 1⟩, fun _ _ => 5⟩ ⟨⟨1, 1⟩, fun _ _ => 0⟩
    (by decide) (by decide)

namespace Fractal

/-- Pointwise expansion of the least-squares objective into the solver's
five accumulated sums. -/
theorem cost_expand (ps : List (ℕ × ℕ)) (s o : ℚ) :
    costP ps s o = s ^ 2 * sumDD ps + 2 * s * o * sumD ps - 2 * s * sumDR ps
      + (ps.length : ℚ) * o ^ 2 - 2 * o * sumR ps + sumRR ps := by
  induction ps with
  | nil => simp [costP, sumDD, sumD, sumDR, sumR, sumRR]
  | cons p ps ih =>
      simp only [costP, sumDD, sumD, sumDR, sumR, sumRR, List.map_cons,
        List.sum_cons, List.length_cons, Nat.cast_succ] at ih ⊢
      rw [ih]
      ring

theorem sumsq_expand (x : ℚ) (ps : List (ℕ × ℕ)) :
    (ps.map fun p => (x - (p.1 : ℚ)) ^ 2).sum =
      (ps.length : ℚ) * x ^ 2 - 2 * x * sumD ps + sumDD ps := by
  induction ps with
  | nil => simp [sumD, sumDD]
  | cons p ps ih =>
      simp only [sumD, sumDD, List.map_cons, List.sum_cons, List.length_cons,
        Nat.cast_succ] at ih ⊢
      rw [ih]
      ring

theorem denom_cons (p : ℕ × ℕ) (ps : List (ℕ × ℕ)) :
    denom (p :: ps) =
      denom ps + (ps.map fun q => ((p.1 : ℚ) - (q.1 : ℚ)) ^ 2).sum := by
  rw [sumsq_expand]
  simp only [denom, sumDD, sumD, List.map_cons, List.sum_cons,
    List.length_cons, Nat.cast_succ]
  ring

/-- Cauchy–Schwarz for the solver's denominator: `n·Σd² − (Σd)² ≥ 0`. -/
theorem denom_nonneg (ps : List (ℕ × ℕ)) : 0 ≤ denom ps := by
  induction ps with
  | nil => simp [denom, sumDD, sumD]
  | cons p ps ih =>
      rw [denom_cons]
      have h2 : 0 ≤ (ps.map fun q => ((p.1 : ℚ) - (q.1 : ℚ)) ^ 2).sum := by
        apply List.sum_nonneg
        intro x hx
        simp only [List.mem_map] at hx
        obtain ⟨q, -, rfl⟩ := hx
        positivity
      linarith

theorem sum_sq_list_zero {x : ℚ} {ps : List (ℕ × ℕ)}
    (h : (ps.map fun q => (x - (q.1 : ℚ)) ^ 2).sum = 0) :
    ∀ q ∈ ps, (q.1 : ℚ) = x := by
  induction ps with
  | nil => intro q hq; cases hq
  | cons p ps ih =>
      simp only [List.map_cons, List.sum_cons] at h
      have hrest : 0 ≤ (ps.map fun q => (x - (q.1 : ℚ)) ^ 2).sum := by
        apply List.sum_nonneg
        intro z hz
        simp only [List.mem_map] at hz
        obtain ⟨q, -, rfl⟩ := hz
        positivity
      have hhd : (x - (p.1 : ℚ)) ^ 2 = 0 := by
        nlinarith [sq_nonneg (x - (p.1 : ℚ))]
      have hx : (p.1 : ℚ) = x := by
        have := sq_eq_zero_iff.mp hhd
        linarith [sub_eq_zero.mp this]
      intro q hq
      rcases List.mem_cons.mp hq with hge | hq
      · rw [hge]; exact hx
      · exact ih (by linarith) q hq

/-- When the denominator vanishes, every domain pixel is the same. -/
theorem denom_zero_const {ps : List (ℕ × ℕ)} (h : denom ps = 0) :
    ∀ p ∈ ps, ∀ q ∈ ps, (p.1 : ℚ) = (q.1 : ℚ) := by
  induction ps with
  | nil => intro p hp; cases hp
  | cons x tl ih =>
      rw [denom_cons] at h
      have h1 : 0 ≤ denom tl := denom_nonneg tl
      have h2 : 0 ≤ (tl.map fun q => ((x.1 : ℚ) - (q.1 : ℚ)) ^ 2).sum := by
        apply List.sum_nonneg
        intro z hz
        simp only [List.mem_map] at hz
        obtain ⟨q, -, rfl⟩ := hz
        positivity
      have hd0 : denom tl = 0 := by linarith
      have hs0 : (tl.map fun q => ((x.1 : ℚ) - (q.1 : ℚ)) ^ 2).sum = 0 := by
        linarith
      have hconst := sum_sq_list_zero hs0
      intro p hp q hq
      rcases List.mem_cons.mp hp with hp1 | hp1 <;>
        rcases List.mem_cons.mp hq with hq1 | hq1
      · rw [hp1, hq1]
      · rw [hp1]
        exact (hconst q hq1).symm
      · rw [hq1]
        exact hconst p hp1
      · exact (hconst p hp1).trans (hconst q hq1).symm

theorem sumD_const {ps : List (ℕ × ℕ)} {c : ℚ}
    (h : ∀ p ∈ ps, (p.1 : ℚ) = c) : sumD ps = (ps.length : ℚ) * c := by
  induction ps with
  | nil => simp [sumD]
  | cons p ps ih =>
      simp only [sumD, List.map_cons, List.sum_cons, List.length_cons,
        Nat.cast_succ] at ih ⊢
      rw [h p (List.mem_cons_self p ps),
        ih (fun q hq => h q (List.mem_cons_of_mem p hq))]
      ring

theorem sumDR_const {ps : List (ℕ × ℕ)} {c : ℚ}
    (h : ∀ p ∈ ps, (p.1 : ℚ) = c) : sumDR ps = c * sumR ps := by
  induction ps with
  | nil => simp [sumDR, sumR]
  | cons p ps ih =>
      simp only [sumDR, sumR, List.map_cons, List.sum_cons] at ih ⊢
      rw [h p (List.mem_cons_self p ps),
        ih (fun q hq => h q (List.mem_cons_of_mem p hq))]
      ring

/-- When the denominator vanishes, so does the saturation numerator. -/
theorem gamma_zero_of_denom_zero {ps : List (ℕ × ℕ)} (h : denom ps = 0) :
    (ps.length : ℚ) * sumDR ps - sumD ps * sumR ps = 0 := by
  cases ps with
  | nil => simp [sumDR, sumD, sumR]
  | cons x tl =>
      have hconst : ∀ p ∈ x :: tl, (p.1 : ℚ) = (x.1 : ℚ) := fun p hp =>
        denom_zero_const h p hp x (List.mem_cons_self x tl)
      rw [sumD_const hconst, sumDR_const hconst]
      ring

/-- The completed-square form of `n ·` the objective. -/
theorem cost_identity (ps : List (ℕ × ℕ)) (s o : ℚ) :
    (ps.length : ℚ) * costP ps s o =
      ((ps.length : ℚ) * o + s * sumD ps - sumR ps) ^ 2
      + (s ^ 2 * denom ps
        - 2 * s * ((ps.length : ℚ) * sumDR ps - sumD ps * sumR ps))
      + ((ps.length : ℚ) * sumRR ps - sumR ps ^ 2) := by
  rw [cost_expand, denom]
  ring

/-- The solver's `(s, o_raw)` pair minimizes the least-squares objective
over all rational coefficient pairs. -/
theorem costP_min (ps : List (ℕ × ℕ)) (hne : ps ≠ []) (s o : ℚ) :
    costP ps (saturationOf ps) (brightnessRaw ps) ≤ costP ps s o := by
  have hn : (0 : ℚ) < (ps.length : ℚ) := by
    exact_mod_cast List.length_pos.mpr hne
  by_cases hΔ : denom ps = 0
  · have hΓ := gamma_zero_of_denom_zero hΔ
    have hs : saturationOf ps = 0 := by rw [saturationOf, if_pos hΔ]
    have ho : brightnessRaw ps = sumR ps / (ps.length : ℚ) := by
      rw [brightnessRaw, if_pos hΔ]
    have h1 := cost_identity ps s o
    have h2 := cost_identity ps (saturationOf ps) (brightnessRaw ps)
    rw [hs, ho] at h2
    have e0 : (ps.length : ℚ) * (sumR ps / (ps.length : ℚ)) + 0 * sumD ps
        - sumR ps = 0 := by
      field_simp
    rw [e0] at h2
    rw [hΔ, hΓ] at h1 h2
    rw [hs, ho]
    refine (mul_le_mul_left hn).mp ?_
    nlinarith [sq_nonneg ((ps.length : ℚ) * o + s * sumD ps - sumR ps), h1, h2]
  · have hΔpos : 0 < denom ps := lt_of_le_of_ne (denom_nonneg ps) (Ne.symm hΔ)
    have hs : saturationOf ps =
        ((ps.length : ℚ) * sumDR ps - sumD ps * sumR ps) / denom ps := by
      rw [saturationOf, if_neg hΔ]
    have ho : brightnessRaw ps =
        (sumR ps - saturationOf ps * sumD ps) / (ps.length : ℚ) := by
      rw [brightnessRaw, if_neg hΔ]
    have e2 : saturationOf ps * denom ps =
        (ps.length : ℚ) * sumDR ps - sumD ps * sumR ps := by
      rw [hs]
      field_simp
    have e1 : (ps.length : ℚ) * brightnessRaw ps
        + saturationOf ps * sumD ps - sumR ps = 0 := by
      rw [ho]
      field_simp
    have h1 := cost_identity ps s o
    have h2 := cost_identity ps (saturationOf ps) (brightnessRaw ps)
    rw [e1] at h2
    rw [← e2] at h1 h2
    refine (mul_le_mul_left hn).mp ?_
    nlinarith [mul_nonneg hΔpos.le (sq_nonneg (s - saturationOf ps)),
      sq_nonneg ((ps.length : ℚ) * o + s * sumD ps - sumR ps), h1, h2]

end Fractal

/-- C5 counterexample: on the 2×2 pixel pair `D = [10,20,10,20]`,
`R = [0,10,0,10]` (where every `f64` operation of the solver is exact),
`Mapping::compute` returns saturation `1` and brightness `0` — the raw
optimum `o = −10` was clamped to `0` — and the returned pair does *not*
minimize `Σ(s·d+o−r)²`: the pair `(1, −10)` has error `0 < 400`. -/
theorem C5_mapping_clamp_counterexample :
    Fractal.Mapping.compute [10, 20, 10, 20] [0, 10, 0, 10] =
      some ⟨100, 0, 1⟩ ∧
    Fractal.lsqError [10, 20, 10, 20] [0, 10, 0, 10] 1 (-10) <
      Fractal.lsqError [10, 20, 10, 20] [0, 10, 0, 10] 1 0 := by
  constructor
  · norm_num [Fractal.Mapping.compute, Fractal.saturationOf,
      Fractal.brightnessRaw, Fractal.denom, Fractal.sumD, Fractal.sumR,
      Fractal.sumDD, Fractal.sumRR, Fractal.sumDR, Fractal.clampQ,
      List.zip, List.zipWith]
  · norm_num [Fractal.lsqError, Fractal.costP, List.zip, List.zipWith]

/-- C5 (amended): for equally-sized non-empty pixel lists, the solver
rejects (`None`) iff the computed `|s| > 1`; when it returns a mapping,
its saturation is the closed-form `s`, its brightness is the clamped raw
optimum truncated to `i16`, and the pair `(s, o_raw)` — with the
*unclamped* brightness — minimizes `Σ(s·d+o−r)²` over all coefficient
pairs. -/
theorem C5_mapping_solver (ds rs : List ℕ) (hlen : ds.length = rs.length)
    (hne : ds ≠ []) :
    (Fractal.Mapping.compute ds rs = none ↔
      1 < |Fractal.saturationOf (ds.zip rs)|) ∧
    ∀ m, Fractal.Mapping.compute ds rs = some m →
      m.saturation = Fractal.saturationOf (ds.zip rs) ∧
      m.brightness =
        ⌊Fractal.clampQ (Fractal.brightnessRaw (ds.zip rs)) 0 255⌋ ∧
      ∀ s o : ℚ,
        Fractal.lsqError ds rs (Fractal.saturationOf (ds.zip rs))
            (Fractal.brightnessRaw (ds.zip rs)) ≤
          Fractal.lsqError ds rs s o := by
  have hzne : ds.zip rs ≠ [] := by
    cases ds with
    | nil => exact absurd rfl hne
    | cons d ds' =>
        cases rs with
        | nil => simp at hlen
        | cons r rs' => simp [List.zip_cons_cons]
  constructor
  · by_cases hs : 1 < |Fractal.saturationOf (ds.zip rs)|
    · simp [Fractal.Mapping.compute, hs]
    · simp [Fractal.Mapping.compute, hs]
  · intro m hm
    by_cases hs : 1 < |Fractal.saturationOf (ds.zip rs)|
    · simp [Fractal.Mapping.compute, hs] at hm
    · simp only [Fractal.Mapping.compute, if_neg hs, Option.some.injEq] at hm
      refine ⟨?_, ?_, fun s o => Fractal.costP_min (ds.zip rs) hzne s o⟩
      · rw [← hm]
      · rw [← hm]

/-- Witness for C5 (amended) at the counterexample's input. -/
theorem C5_mapping_solver_witness :
    (Fractal.Mapping.compute [10, 20, 10, 20] [0, 10, 0, 10] = none ↔
      1 < |Fractal.saturationOf ([10, 20, 10, 20].zip [0, 10, 0, 10])|) ∧
    ∀ m, Fractal.Mapping.compute [10, 20, 10, 20] [0, 10, 0, 10] = some m →
      m.saturation =
        Fractal.saturationOf ([10, 20, 10, 20].zip [0, 10, 0, 10]) ∧
      m.brightness = ⌊Fractal.clampQ
        (Fractal.brightnessRaw ([10, 20, 10, 20].zip [0, 10, 0, 10]))
        0 255⌋ ∧
      ∀ s o : ℚ,
        Fractal.lsqError [10, 20, 10, 20] [0, 10, 0, 10]
            (Fractal.saturationOf ([10, 20, 10, 20].zip [0, 10, 0, 10]))
            (Fractal.brightnessRaw ([10, 20, 10, 20].zip [0, 10, 0, 10])) ≤
          Fractal.lsqError [10, 20, 10, 20] [0, 10, 0, 10] s o :=
  C5_mapping_solver [10, 20, 10, 20] [0, 10, 0, 10] (by decide) (by decide)

namespace Fractal

/-- Anything `Mapping::compute` returns has `|s| ≤ 1`. -/
theorem compute_sat_le {ds rs : List ℕ} {m : Mapping}
    (h : Mapping.compute ds rs = some m) : |m.saturation| ≤ 1 := by
  by_cases hs : 1 < |saturationOf (ds.zip rs)|
  · simp [Mapping.compute, hs] at h
  · simp only [Mapping.compute, if_neg hs, Option.some.injEq] at h
    rw [← h]
    exact le_of_not_lt hs

/-- Anything `Transformation::find` emits has `|saturation| ≤ 1`,
because its mapping came from a successful `Mapping::compute`. -/
theorem find_sat_le {dbs : List SquaredBlock} {rb : SquaredBlock}
    {thr : ErrorThreshold} {t : Transformation ℚ}
    (h : Transformation.find dbs rb thr = some t) : |t.saturation| ≤ 1 := by
  simp only [Transformation.find] at h
  cases hf : (((dbs.map Downscaled.mk).flatMap allRotations).filterMap fun db =>
      (Mapping.compute db.pixels rb.toImg.pixels).map fun m => (db, m)).find?
      fun dm => dm.2.accepted thr with
  | none => rw [hf] at h; cases h
  | some dm =>
      rw [hf] at h
      obtain ⟨db, m⟩ := dm
      simp only [Option.some.injEq] at h
      have hmem := List.mem_of_find?_eq_some hf
      simp only [List.mem_filterMap] at hmem
      obtain ⟨db', -, hmap⟩ := hmem
      rw [Option.map_eq_some'] at hmap
      obtain ⟨m', hm', heq⟩ := hmap
      have hms : m' = m := (Prod.ext_iff.mp heq).2
      rw [← h]
      simpa [← hms] using compute_sat_le hm'

/-- Successful `Except`-monadic `mapM` results come from successful
applications on members. -/
theorem exceptMapM_mem {α β ε : Type} {f : α → Except ε β} :
    ∀ {xs : List α} {ls : List β}, xs.mapM f = .ok ls →
      ∀ l ∈ ls, ∃ x ∈ xs, f x = .ok l := by
  intro xs
  induction xs with
  | nil =>
      intro ls h l hl
      simp only [List.mapM_nil, pure, Except.pure, Except.ok.injEq] at h
      subst h
      cases hl
  | cons x xs ih =>
      intro ls h l hl
      rw [List.mapM_cons] at h
      cases hfx : f x with
      | error e =>
          rw [hfx] at h
          simp [Bind.bind, Except.bind] at h
      | ok b =>
          rw [hfx] at h
          cases hms : xs.mapM f with
          | error e =>
              rw [hms] at h
              simp [Bind.bind, Except.bind] at h
          | ok bs =>
              rw [hms] at h
              simp only [Bind.bind, Except.bind, pure, Except.pure,
                Except.ok.injEq] at h
              subst h
              rcases List.mem_cons.mp hl with hge | hl
              · exact ⟨x, List.mem_cons_self x xs, by rw [hge]; exact hfx⟩
              · obtain ⟨x', hx', hfx'⟩ := ih hms l hl
                exact ⟨x', List.mem_cons_of_mem x hx', hfx'⟩

/-- Every transformation the recursive search returns has
`|saturation| ≤ 1`, at every fuel. -/
theorem findTransRecAux_sat (img : Img) (thr : ErrorThreshold) :
    ∀ (fuel : ℕ) (rb : SquaredBlock) (res : List (Transformation ℚ)),
      findTransRecAux img thr fuel rb = .ok res →
      ∀ t ∈ res, |t.saturation| ≤ 1 := by
  intro fuel
  induction fuel with
  | zero =>
      intro rb res h t ht
      simp only [findTransRecAux, Except.ok.injEq] at h
      subst h
      cases ht
  | succ fuel ih =>
      intro rb res h t ht
      rw [findTransRecAux] at h
      split at h
      · cases h
      · split at h
        · rename_i t0 hf
          simp only [Except.ok.injEq] at h
          subst h
          rcases List.mem_singleton.mp ht with hge
          rw [hge]
          exact find_sat_le hf
        · split at h
          · simp only [Except.ok.injEq] at h
            subst h
            cases ht
          · split at h
            · cases h
            · rename_i nrbs hsb2
              cases hmall : nrbs.mapM (findTransRecAux img thr fuel) with
              | error e => rw [hmall] at h; simp [Except.map] at h
              | ok ls =>
                  rw [hmall] at h
                  simp only [Except.map, Except.ok.injEq] at h
                  subst h
                  obtain ⟨l, hl, htl⟩ := List.mem_flatten.mp ht
                  obtain ⟨rbx, -, hfx⟩ := exceptMapM_mem hmall l hl
                  exact ih rbx l hfx t htl

end Fractal

/-- C4: every transformation in the `Compressed` a successful
`Compressor::compress` returns has `|saturation| ≤ 1`: candidates whose
solver saturation exceeds 1 in magnitude are rejected by
`Mapping::compute` and can never be emitted. -/
theorem C4_compress_contractive (img : Fractal.Img)
    (thr : Fractal.ErrorThreshold) (c : Fractal.Compressed ℚ)
    (h : Fractal.compress img thr = .ok c) :
    ∀ t ∈ c.transformations, |t.saturation| ≤ 1 := by
  intro t ht
  simp only [Fractal.compress] at h
  split at h
  · cases h
  · split at h
    · cases h
    · rename_i rbs h2
      cases hm : rbs.mapM (fun rb =>
          Fractal.findTransRecAux img thr (rb.size + 1) rb) with
      | error e => rw [hm] at h; simp [Except.map] at h
      | ok ls =>
          rw [hm] at h
          simp only [Except.map, Except.ok.injEq] at h
          subst h
          obtain ⟨l, hl, htl⟩ := List.mem_flatten.mp ht
          obtain ⟨rbx, -, hfx⟩ := Fractal.exceptMapM_mem hm l hl
          exact Fractal.findTransRecAux_sat img thr (rbx.size + 1) rbx l
            hfx t htl

namespace Fractal

/-- Downscaling an all-zero block gives zero pixels. -/
theorem downscalePixel_const_zero (b : SquaredBlock) (hz : ∀ x y, b.image.pixel x y = 0)
    (x y : ℕ) : Downscaled.pixelD ⟨b⟩ x y = 0 := by
  simp [Downscaled.pixelD, downscale2x2Pixel, SquaredBlock.toImg,
    SquaredBlock.pixelB, f64ToU8, hz]

/-- The solver on the single all-zero pixel pair. -/
theorem compute_zero_pair : Mapping.compute [0] [0] = some ⟨0, 0, 0⟩ := by
  norm_num [Mapping.compute, saturationOf, brightnessRaw, denom, sumD, sumR,
    sumDD, sumRR, sumDR, clampQ, List.zip, List.zipWith]

/-- Zero error beats the default threshold 5. -/
theorem accepted_zero_five : Mapping.accepted ⟨0, 0, 0⟩ ⟨5⟩ = true := by
  simp only [Mapping.accepted, decide_eq_true_eq]
  norm_num

end Fractal

namespace Fractal

/-- `Transformation::find` on the all-zero 2×2 image: the first
candidate (rotation `By0`) wins with `s = 0`, `o = 0`. -/
theorem find_zero2x2 (o : Coords) :
    Transformation.find [⟨⟨⟨2, 2⟩, fun _ _ => 0⟩, 2, ⟨0, 0⟩⟩]
      ⟨⟨⟨2, 2⟩, fun _ _ => 0⟩, 1, o⟩ ⟨5⟩ =
      some ⟨⟨1, o⟩, ⟨2, ⟨0, 0⟩⟩, .by0, 0, 0⟩ := by
  have hdp := downscalePixel_const_zero ⟨⟨⟨2, 2⟩, fun _ _ => 0⟩, 2, ⟨0, 0⟩⟩
    (fun x y => rfl)
  have hpall : ∀ r : Rotation,
      Rotated.pixels ⟨⟨⟨⟨⟨2, 2⟩, fun _ _ => 0⟩, 2, ⟨0, 0⟩⟩⟩, r⟩ = [0] := by
    intro r
    cases r <;>
      simp [Rotated.pixels, rowMajorPixels, Rotated.pixelR, Rotated.side,
        Downscaled.side, hdp, List.range_succ]
  have hrb : (SquaredBlock.toImg ⟨⟨⟨2, 2⟩, fun _ _ => 0⟩, 1, o⟩).pixels =
      [0] := by
    simp [SquaredBlock.toImg, Img.pixels, rowMajorPixels,
      SquaredBlock.pixelB, Size.squared, List.range_succ]
  simp only [Transformation.find, allRotations, List.map_cons, List.map_nil,
    List.flatMap_cons, List.flatMap_nil, List.append_nil, List.cons_append,
    List.nil_append, hrb, hpall, compute_zero_pair, List.filterMap_cons,
    List.filterMap_nil, Option.map_some', List.find?, accepted_zero_five]

theorem squared_blocks_zero2 :
    squared_blocks ⟨⟨2, 2⟩, fun _ _ => 0⟩ 2 =
      .ok [⟨⟨⟨2, 2⟩, fun _ _ => 0⟩, 2, ⟨0, 0⟩⟩] := by
  simp [squared_blocks, create_blocks, SProd.sprod, List.product,
    List.range_succ, Except.map]

theorem squared_blocks_zero1 :
    squared_blocks ⟨⟨2, 2⟩, fun _ _ => 0⟩ 1 =
      .ok [⟨⟨⟨2, 2⟩, fun _ _ => 0⟩, 1, ⟨0, 0⟩⟩,
           ⟨⟨⟨2, 2⟩, fun _ _ => 0⟩, 1, ⟨1, 0⟩⟩,
           ⟨⟨⟨2, 2⟩, fun _ _ => 0⟩, 1, ⟨0, 1⟩⟩,
           ⟨⟨⟨2, 2⟩, fun _ _ => 0⟩, 1, ⟨1, 1⟩⟩] := by
  simp [squared_blocks, create_blocks, SProd.sprod, List.product,
    List.range_succ, Except.map]

theorem findTransRecAux_zero2x2 (o : Coords) :
    findTransRecAux ⟨⟨2, 2⟩, fun _ _ => 0⟩ ⟨5⟩ 2
      ⟨⟨⟨2, 2⟩, fun _ _ => 0⟩, 1, o⟩ =
      .ok [⟨⟨1, o⟩, ⟨2, ⟨0, 0⟩⟩, .by0, 0, 0⟩] := by
  simp only [findTransRecAux]
  rw [show (2 * (⟨⟨⟨2, 2⟩, fun _ _ => 0⟩, 1, o⟩ : SquaredBlock).size) = 2
    from rfl, squared_blocks_zero2]
  simp only [find_zero2x2]

/-- A full concrete run: compressing the all-zero 2×2 image yields four
1×1 range blocks, each mapped from the whole image by rotation `By0`
with saturation `0` and brightness `0`. -/
theorem compress_zero2x2 :
    compress ⟨⟨2, 2⟩, fun _ _ => 0⟩ ⟨5⟩ =
      .ok ⟨⟨2, 2⟩,
        [⟨⟨1, ⟨0, 0⟩⟩, ⟨2, ⟨0, 0⟩⟩, .by0, 0, 0⟩,
         ⟨⟨1, ⟨1, 0⟩⟩, ⟨2, ⟨0, 0⟩⟩, .by0, 0, 0⟩,
         ⟨⟨1, ⟨0, 1⟩⟩, ⟨2, ⟨0, 0⟩⟩, .by0, 0, 0⟩,
         ⟨⟨1, ⟨1, 1⟩⟩, ⟨2, ⟨0, 0⟩⟩, .by0, 0, 0⟩]⟩ := by
  simp only [compress]
  rw [squared_blocks_zero2, show (2 / 2 : ℕ) = 1 from rfl, squared_blocks_zero1]
  simp only [List.mapM_cons, List.mapM_nil, findTransRecAux_zero2x2]
  simp [Bind.bind, Except.bind, pure, Except.pure, Except.map, findTransRecAux_zero2x2]

end Fractal

/-- Witness for C4: a transformation emitted by the concrete compress
run on the all-zero 2×2 image has `|saturation| ≤ 1`. -/
theorem C4_compress_contractive_witness :
    |(⟨⟨1, ⟨0, 0⟩⟩, ⟨2, ⟨0, 0⟩⟩, Fractal.Rotation.by0, 0, (0 : ℚ)⟩ :
      Fractal.Transformation ℚ).saturation| ≤ 1 :=
  C4_compress_contractive ⟨⟨2, 2⟩, fun _ _ => 0⟩ ⟨5⟩
    ⟨⟨2, 2⟩,
      [⟨⟨1, ⟨0, 0⟩⟩, ⟨2, ⟨0, 0⟩⟩, .by0, 0, 0⟩,
       ⟨⟨1, ⟨1, 0⟩⟩, ⟨2, ⟨0, 0⟩⟩, .by0, 0, 0⟩,
       ⟨⟨1, ⟨0, 1⟩⟩, ⟨2, ⟨0, 0⟩⟩, .by0, 0, 0⟩,
       ⟨⟨1, ⟨1, 1⟩⟩, ⟨2, ⟨0, 0⟩⟩, .by0, 0, 0⟩]⟩
    Fractal.compress_zero2x2
    ⟨⟨1, ⟨0, 0⟩⟩, ⟨2, ⟨0, 0⟩⟩, .by0, 0, 0⟩
    (List.mem_cons_self _ _)

/-- C8: `decompress` is deterministic — two calls with the same
`Compressed` and `Options` yield identical final rasters and identical
snapshot lists — because the starting raster is generated by a PRNG
seeded with `size.area()` (`random = random_with_seed size size.area`,
so rasters of equal area get identical pixel data) and the iteration
loop is purely sequential. -/
theorem C8_decompress_deterministic :
    (∀ (c : Fractal.Compressed ℚ) (o : Fractal.Options),
      (Fractal.decompress c o).image = (Fractal.decompress c o).image ∧
      (Fractal.decompress c o).iterations =
        (Fractal.decompress c o).iterations) ∧
    (∀ s : Fractal.Size,
      Fractal.OwnedImage.random s =
        Fractal.OwnedImage.random_with_seed s s.area) ∧
    (∀ s₁ s₂ : Fractal.Size, s₁.area = s₂.area →
      (Fractal.OwnedImage.random s₁).data =
        (Fractal.OwnedImage.random s₂).data) := by
  refine ⟨fun c o => ⟨rfl, rfl⟩, fun s => rfl, fun s₁ s₂ h => ?_⟩
  simp [Fractal.OwnedImage.random, Fractal.OwnedImage.random_with_seed, h]

/-- Witness for C8: a concrete decode, and two differently-shaped sizes
of equal area receiving identical seeded data. -/
theorem C8_decompress_deterministic_witness :
    ((Fractal.decompress ⟨⟨2, 2⟩, []⟩ ⟨3, true⟩).image =
      (Fractal.decompress ⟨⟨2, 2⟩, []⟩ ⟨3, true⟩).image ∧
     (Fractal.decompress ⟨⟨2, 2⟩, []⟩ ⟨3, true⟩).iterations =
      (Fractal.decompress ⟨⟨2, 2⟩, []⟩ ⟨3, true⟩).iterations) ∧
    Fractal.OwnedImage.random ⟨2, 3⟩ =
      Fractal.OwnedImage.random_with_seed ⟨2, 3⟩ (Fractal.Size.mk 2 3).area ∧
    (Fractal.OwnedImage.random ⟨2, 3⟩).data =
      (Fractal.OwnedImage.random ⟨3, 2⟩).data :=
  ⟨C8_decompress_deterministic.1 ⟨⟨2, 2⟩, []⟩ ⟨3, true⟩,
   C8_decompress_deterministic.2.1 ⟨2, 3⟩,
   C8_decompress_deterministic.2.2 ⟨2, 3⟩ ⟨3, 2⟩ (by decide)⟩
